import Mathlib

/-!
# Verification of the shukra network-meta-analysis core

This file is a shallow embedding, in Lean 4, of the NMA engine of the
shukra repository (`nma.js`, `graph.js`, `util.js`), together with theorems
settling a list of claims about it.

Modelling conventions:

* JavaScript numbers are modelled by `JSVal`: either a real number, one of
  the two infinities, or NaN.  Floating-point rounding is idealised away
  (machine arithmetic is modelled by exact real arithmetic), but the
  *structural* IEEE behaviour the code relies on — NaN propagation,
  division by zero producing infinities, `Math.sqrt` of a negative number
  producing NaN, `NaN === 0` being false — is modelled faithfully, because
  the code uses NaN as a first-class "no evidence" marker.
* The dense linear algebra inside the solver (`inverse` of an invertible
  matrix) is modelled over `ℝ` with Mathlib matrices.
* The `ml-matrix` pseudoinverse and the standard-normal distribution are
  external npm collaborators of the repository (spec §6); they are modelled
  as parameters (`pinv`, `StdDist`), with their contracts (the Moore–Penrose
  equations; CDF bounds) appearing as hypotheses of the theorems that need
  them.
-/

namespace Shukra

open Matrix

/-- A JavaScript number: a real, an infinity, or NaN.  (Signed zeros and
rounding are idealised away; NaN/infinity structure is kept.) -/
inductive JSVal : Type where
  | num (x : ℝ)
  | posInf
  | negInf
  | nan

namespace JSVal

/-- `Number.isNaN`. -/
def isNaN : JSVal → Bool
  | nan => true
  | _ => false

/-- Is this value a finite number? -/
def isNum : JSVal → Bool
  | num _ => true
  | _ => false

/-- Extract the real payload of a finite value (junk on non-finite input;
only applied behind an `isNum` check, mirroring code paths where the
JavaScript value is known to be finite). -/
def toReal : JSVal → ℝ
  | num x => x
  | _ => 0

/-- JavaScript unary minus. -/
def neg : JSVal → JSVal
  | num x => num (-x)
  | posInf => negInf
  | negInf => posInf
  | nan => nan

/-- JavaScript `+` on numbers. -/
def add : JSVal → JSVal → JSVal
  | nan, _ => nan
  | _, nan => nan
  | num x, num y => num (x + y)
  | posInf, negInf => nan
  | negInf, posInf => nan
  | posInf, _ => posInf
  | _, posInf => posInf
  | negInf, _ => negInf
  | _, negInf => negInf

/-- JavaScript `-` on numbers. -/
def sub (a b : JSVal) : JSVal := add a (neg b)

open Classical in
/-- JavaScript `*` on numbers. -/
noncomputable def mul : JSVal → JSVal → JSVal
  | nan, _ => nan
  | _, nan => nan
  | num x, num y => num (x * y)
  | posInf, posInf => posInf
  | posInf, negInf => negInf
  | negInf, posInf => negInf
  | negInf, negInf => posInf
  | posInf, num y => if y = 0 then nan else if 0 < y then posInf else negInf
  | num x, posInf => if x = 0 then nan else if 0 < x then posInf else negInf
  | negInf, num y => if y = 0 then nan else if 0 < y then negInf else posInf
  | num x, negInf => if x = 0 then nan else if 0 < x then negInf else posInf

open Classical in
/-- JavaScript `/` on numbers (division by zero yields an infinity, `0/0`
and `∞/∞` yield NaN). -/
noncomputable def div : JSVal → JSVal → JSVal
  | nan, _ => nan
  | _, nan => nan
  | num x, num y =>
      if y = 0 then (if x = 0 then nan else if 0 < x then posInf else negInf)
      else num (x / y)
  | num _, posInf => num 0
  | num _, negInf => num 0
  | posInf, num y => if 0 ≤ y then posInf else negInf
  | negInf, num y => if 0 ≤ y then negInf else posInf
  | posInf, _ => nan
  | negInf, _ => nan

open Classical in
/-- `Math.sqrt`. -/
noncomputable def sqrt : JSVal → JSVal
  | num x => if x < 0 then nan else num (Real.sqrt x)
  | posInf => posInf
  | negInf => nan
  | nan => nan

/-- `Math.exp`. -/
noncomputable def exp : JSVal → JSVal
  | num x => num (Real.exp x)
  | posInf => posInf
  | negInf => num 0
  | nan => nan

/-- `Math.abs`. -/
def abs : JSVal → JSVal
  | num x => num |x|
  | posInf => posInf
  | negInf => posInf
  | nan => nan

open Classical in
/-- `Math.max` on two numbers (NaN-absorbing, as in JavaScript). -/
noncomputable def max : JSVal → JSVal → JSVal
  | nan, _ => nan
  | _, nan => nan
  | num x, num y => num (if x ≤ y then y else x)
  | posInf, _ => posInf
  | _, posInf => posInf
  | negInf, b => b
  | a, negInf => a

open Classical in
/-- The truth value of `v === 0` for a JavaScript number `v`. -/
noncomputable def eqZero : JSVal → Bool
  | num x => decide (x = 0)
  | _ => false

open Classical in
/-- The truth value of `v > 0` for a JavaScript number `v`
(`NaN > 0` is false). -/
noncomputable def gtZero : JSVal → Bool
  | num x => decide (0 < x)
  | posInf => true
  | _ => false

end JSVal

/-! ## Small utilities shared by the embedding

`jsDedup` models iteration over a JavaScript `Set` built from a list:
the distinct elements in order of first occurrence.  `jsIndexOf` models
`Array.prototype.indexOf` (with explicit `Option` instead of `-1`).
-/

/-- Distinct elements of a list, in order of first occurrence (the
iteration order of a JavaScript `Set` built from the list). -/
def jsDedup {α : Type} [DecidableEq α] (l : List α) : List α :=
  l.foldl (fun acc x => if x ∈ acc then acc else acc ++ [x]) []

/-- `Array.prototype.indexOf`, with `none` for "not found". -/
def jsIndexOf {α : Type} [DecidableEq α] : List α → α → Option ℕ
  | [], _ => none
  | x :: xs, a => if x = a then some 0 else (jsIndexOf xs a).map (· + 1)

/-- Element access `arr[i]` with a junk default (out-of-range access is
never exercised on the paths the theorems traverse). -/
def jsGet {α : Type} [Inhabited α] (l : List α) (i : ℕ) : α := l.getD i default

instance : Inhabited JSVal := ⟨JSVal.nan⟩

/-- The lexicographic enumeration of the index pairs `(i, j)`, `i < j < k`,
in the order produced by the double loops of `_buildAllPairwiseContrasts`,
`_buildAllPairsORStatistics` and `_computeNewSEs`. -/
def pairList (k : ℕ) : List (ℕ × ℕ) :=
  (List.range k).flatMap fun i =>
    (List.range k).filterMap fun j => if i < j then some (i, j) else none

/-- `invertNChoose2` from `nma.js`: recover `k` from `k·(k-1)/2` (the code
computes `(1 + Math.sqrt(8x+1))/2`). -/
noncomputable def invertNChoose2 (x : ℝ) : ℝ := (1 + Real.sqrt (8 * x + 1)) / 2

/-- An integer square root by bounded search (one less than the number
of `r ≤ x` with `r² ≤ x`), used so that concrete arm counts evaluate by
kernel reduction. -/
def intSqrt (x : ℕ) : ℕ :=
  ((List.range (x + 1)).filter fun r => r * r ≤ x).length - 1

/-- The arm count recovered from a pairing count, as a natural number:
`(1 + √(8m+1))/2`.  For `m = k(k-1)/2` this is exactly `k`; the code
computes the same integer through floating-point `Math.sqrt` (exact on
these perfect squares). -/
def armsOf (m : ℕ) : ℕ := (1 + intSqrt (8 * m + 1)) / 2

/-- `_computeDF1` from `nma.js`: given the per-contrast study labels,
`2 · Σ_contrasts 1/invertNChoose2(multiplicity of the contrast's label)`.
(`lookup[s]` counts the contrasts carrying label `s`, and
`invertNChoose2` of that count recovers the arm count of study `s`.) -/
noncomputable def computeDF1 {L : Type} [DecidableEq L] (studies : List L) : ℝ :=
  2 * ((studies.map fun s => 1 / invertNChoose2 (studies.count s)).sum)

/-! ## `graph.js`: connected components

Treatments are vertices; each study makes its arm treatments a clique
(including self-loops).  Components are found by repeated DFS from the
first undiscovered node, mirroring `dfsAccumulate` / `getConnectedComponents`.
-/

section Graph

variable {L T : Type} [DecidableEq L] [DecidableEq T]

/-- The node indices of one study's arm treatments (`nodeIxs` in
`getConnectedComponents`): for every arm of study `s`, the index of its
treatment in `nodes`.  Arm treatments always occur in `nodes`, so the
`.getD 0` default is never meaningful. -/
def studyNodeIxs (studies : List L) (treatments : List T) (nodes : List T)
    (s : L) : List ℕ :=
  ((studies.zip treatments).filter fun p => p.1 = s).map fun p =>
    (jsIndexOf nodes p.2).getD 0

/-- The adjacency relation built by `getConnectedComponents`: node indices
`i` and `j` are adjacent iff some study contains both treatments among its
arms (the per-study double `forEach` makes each study a clique, self-loops
included). -/
def gccAdj (studies : List L) (treatments : List T) (nodes : List T)
    (i j : ℕ) : Bool :=
  (jsDedup studies).any fun s =>
    (studyNodeIxs studies treatments nodes s).contains i &&
    (studyNodeIxs studies treatments nodes s).contains j

/-- `dfsAccumulate` from `graph.js`, with explicit fuel (the JavaScript
recursion depth is bounded by the node count, since every recursive call
first marks a previously unvisited node). -/
def dfsAcc (adj : ℕ → ℕ → Bool) (n : ℕ) : ℕ → ℕ → List ℕ → List ℕ
  | 0, _, visited => visited
  | fuel + 1, cur, visited =>
      ((List.range n).filter fun j => adj cur j).foldl
        (fun vis nix =>
          if nix ∈ vis then vis else dfsAcc adj n fuel nix (vis ++ [nix]))
        visited

/-- The first node index not yet assigned to a component
(`getNextSearchStart`). -/
def nextSearchStart (comps : List (List ℕ)) (n : ℕ) : Option ℕ :=
  (List.range n).find? fun ix => !(comps.any fun c => c.contains ix)

/-- The `while` loop of `getConnectedComponents`, with fuel (it runs at
most once per node). -/
def gccLoop (adj : ℕ → ℕ → Bool) (n : ℕ) :
    ℕ → List (List ℕ) → List (List ℕ)
  | 0, comps => comps
  | fuel + 1, comps =>
      match nextSearchStart comps n with
      | none => comps
      | some start => gccLoop adj n fuel (comps ++ [dfsAcc adj n (n + 1) start []])

/-- `getConnectedComponents` from `graph.js`.  The JavaScript function
throws on a length mismatch; its two callers check lengths first, so the
mismatch branch is modelled by the empty result. -/
def getConnectedComponents (studies : List L) (treatments : List T) :
    List (List T) :=
  if studies.length ≠ treatments.length then []
  else if studies.isEmpty then []
  else
    let nodes := jsDedup treatments
    let n := nodes.length
    let adj := gccAdj studies treatments nodes
    let comp0 := dfsAcc adj n (n + 1) 0 []
    (gccLoop adj n (n + 1) [comp0]).map fun c => c.filterMap nodes.get?

end Graph

/-! ## Matrix collaborator interface

The dense-matrix pseudoinverse comes from the external `ml-matrix`
package (spec §6: "a dense-matrix library providing multiply, transpose,
inverse, and tolerance-parameterized pseudoinverse").  It is modelled as a
function parameter `pinv`; theorems that depend on its output value
hypothesise the Moore–Penrose equations for the matrix actually passed
(in exact arithmetic the tolerance-regularised pseudoinverse of the
matrices arising here agrees with the Moore–Penrose pseudoinverse).
-/

/-- The type of the pseudoinverse collaborator. -/
def PinvFun : Type := (n : ℕ) → Matrix (Fin n) (Fin n) ℝ → Matrix (Fin n) (Fin n) ℝ

/-- The four Penrose equations: `B` is the Moore–Penrose pseudoinverse
of `A`. -/
def IsMPInv {n : ℕ} (A B : Matrix (Fin n) (Fin n) ℝ) : Prop :=
  A * B * A = A ∧ B * A * B = B ∧ (A * B)ᵀ = A * B ∧ (B * A)ᵀ = B * A

/-- The Moore–Penrose pseudoinverse is unique. -/
theorem IsMPInv.unique {n : ℕ} {A B C : Matrix (Fin n) (Fin n) ℝ}
    (hB : IsMPInv A B) (hC : IsMPInv A C) : B = C := by
  obtain ⟨hb1, hb2, hb3, hb4⟩ := hB
  obtain ⟨hc1, hc2, hc3, hc4⟩ := hC
  have e3 : Bᵀ * Aᵀ = A * B := by rw [← Matrix.transpose_mul, hb3]
  have e4 : Aᵀ * Bᵀ = B * A := by rw [← Matrix.transpose_mul, hb4]
  have f3 : Cᵀ * Aᵀ = A * C := by rw [← Matrix.transpose_mul, hc3]
  have f4 : Aᵀ * Cᵀ = C * A := by rw [← Matrix.transpose_mul, hc4]
  have hAexpC : Aᵀ = Aᵀ * (Cᵀ * Aᵀ) := by
    conv_lhs => rw [← hc1]
    rw [Matrix.transpose_mul, Matrix.transpose_mul]
  have hAexpB : Aᵀ = Aᵀ * (Bᵀ * Aᵀ) := by
    conv_lhs => rw [← hb1]
    rw [Matrix.transpose_mul, Matrix.transpose_mul]
  have e2x : ∀ X : Matrix (Fin n) (Fin n) ℝ, B * (A * (B * X)) = B * X := by
    intro X
    rw [← Matrix.mul_assoc B A (B * X), ← Matrix.mul_assoc (B * A) B X, hb2]
  have e3x : ∀ X : Matrix (Fin n) (Fin n) ℝ, Bᵀ * (Aᵀ * X) = A * (B * X) := by
    intro X
    rw [← Matrix.mul_assoc Bᵀ Aᵀ X, e3, Matrix.mul_assoc]
  have e4x : ∀ X : Matrix (Fin n) (Fin n) ℝ, Aᵀ * (Bᵀ * X) = B * (A * X) := by
    intro X
    rw [← Matrix.mul_assoc Aᵀ Bᵀ X, e4, Matrix.mul_assoc]
  have f4x : ∀ X : Matrix (Fin n) (Fin n) ℝ, Aᵀ * (Cᵀ * X) = C * (A * X) := by
    intro X
    rw [← Matrix.mul_assoc Aᵀ Cᵀ X, f4, Matrix.mul_assoc]
  have f1x : ∀ X : Matrix (Fin n) (Fin n) ℝ, A * (C * (A * X)) = A * X := by
    intro X
    rw [← Matrix.mul_assoc A C (A * X), ← Matrix.mul_assoc (A * C) A X, hc1]
  have hBkey : B = B * (A * C) := by
    calc B = B * A * B := hb2.symm
    _ = B * (A * B) := by rw [Matrix.mul_assoc]
    _ = B * (Bᵀ * Aᵀ) := by rw [e3]
    _ = B * (Bᵀ * (Aᵀ * (Cᵀ * Aᵀ))) := by conv_lhs => rw [hAexpC]
    _ = B * (Bᵀ * (Aᵀ * (A * C))) := by rw [f3]
    _ = B * (A * (B * (A * C))) := by rw [e3x]
    _ = B * (A * C) := e2x _
  have hCkey : C = B * (A * C) := by
    calc C = C * A * C := hc2.symm
    _ = C * (A * C) := by rw [Matrix.mul_assoc]
    _ = Aᵀ * (Cᵀ * C) := by rw [f4x]
    _ = (Aᵀ * (Bᵀ * Aᵀ)) * (Cᵀ * C) := by rw [← hAexpB]
    _ = Aᵀ * (Bᵀ * (Aᵀ * (Cᵀ * C))) := by
          rw [Matrix.mul_assoc, Matrix.mul_assoc]
    _ = Aᵀ * (Bᵀ * (C * (A * C))) := by rw [f4x]
    _ = B * (A * (C * (A * C))) := by rw [e4x]
    _ = B * (A * C) := by rw [f1x]
  exact hBkey.trans hCkey.symm

/-- Entry of a `Fin`-indexed matrix at ℕ indices (junk 0 outside range;
in-range on all exercised paths). -/
def matAt {k : ℕ} (M : Matrix (Fin k) (Fin k) ℝ) (i j : ℕ) : ℝ :=
  if h : i < k ∧ j < k then M ⟨i, h.1⟩ ⟨j, h.2⟩ else 0

open Classical in
/-- JavaScript `1 / x` for a finite `x` (`1/0` is `+Infinity`). -/
noncomputable def jsInv1 (x : ℝ) : JSVal :=
  if x = 0 then JSVal.posInf else JSVal.num (1 / x)

/-- `_buildAllPairwiseContrasts`: one row per unordered treatment pair of
a `k`-arm study, `+1` at the first index, `-1` at the second. -/
def buildAllPairwiseContrasts (k : ℕ) :
    Matrix (Fin (pairList k).length) (Fin k) ℝ := fun e t =>
  if ((pairList k).get e).1 = t.val then 1
  else if ((pairList k).get e).2 = t.val then -1 else 0

/-- `_computeNewSEs` from `nma.js`: re-weight one study's pairwise
variances for the multi-arm covariance structure, via the graph-Laplacian
construction and the library pseudoinverse `pinv`.  The final per-pair
value is `1 / W[i][j]` in JavaScript arithmetic (so a zero denominator
gives `+Infinity`).  The guard `(pairList k).length = m` always holds for
the triangular lengths produced by the contrast builders; for any other
length the dimension mismatch would throw inside `ml-matrix`, modelled
here by a junk NaN list.  `newSEsLt` is the matrix handed to the
pseudoinverse (`Lt` in the source, `BtB·(diag(BᵀRB) − BᵀRB)·BtB / (−2k²)`
with the matrix products written as explicit sums). -/
noncomputable def newSEsLt (k : ℕ) (r : List ℝ) : Matrix (Fin k) (Fin k) ℝ :=
  let pairs := pairList k
  let p := pairs.length
  let B : ℕ → ℕ → ℝ := fun e t =>
    if (pairs.getD e (0, 0)).1 = t then 1
    else if (pairs.getD e (0, 0)).2 = t then -1 else 0
  let cached : ℕ → ℕ → ℝ := fun i j =>
    ∑ e ∈ Finset.range p, B e i * r.getD e 0 * B e j
  let R : ℕ → ℕ → ℝ := fun i j => (if i = j then cached i i else 0) - cached i j
  let BtB : ℕ → ℕ → ℝ := fun i j => ∑ e ∈ Finset.range p, B e i * B e j
  fun i j =>
    (-(2 * (k : ℝ) ^ 2))⁻¹ *
      ∑ a ∈ Finset.range k, ∑ b ∈ Finset.range k,
        BtB i.val a * R a b * BtB b j.val

noncomputable def computeNewSEs (pinv : PinvFun) (r : List ℝ) : List JSVal :=
  let m := r.length
  let k := armsOf m
  if (pairList k).length = m then
    let L := pinv k (newSEsLt k r)
    let W := Matrix.diagonal (fun i => L i i) - L
    (pairList k).map fun p => jsInv1 (matAt W p.1 p.2)
  else r.map fun _ => JSVal.nan

/-- The result record of `_computePrerequisites`. -/
structure PrereqResult (T : Type) where
  standardErrors : List JSVal
  treatmentIndicesA : List ℕ
  treatmentIndicesB : List ℕ
  orderedTreatments : List T

/-- `_computePrerequisites` from `nma.js`: map treatments to indices and
compute the corrected standard error of every contrast.  The JavaScript
write-back loop touches disjoint index sets (one per study label), so the
final array is assembled independently per contrast: each contrast's
corrected SE comes from `_computeNewSEs` applied to its own study's
pair-weight vector, at the contrast's position within that study. -/
noncomputable def computePrerequisites {L T : Type} [DecidableEq L] [DecidableEq T]
    (pinv : PinvFun) (effectStandardErrors : List ℝ)
    (treatmentsA treatmentsB : List T) (studies : List L) (tau : ℝ := 0) :
    PrereqResult T :=
  let allTreatments := jsDedup (treatmentsA ++ treatmentsB)
  let idxA := treatmentsA.map fun t => (jsIndexOf allTreatments t).getD 0
  let idxB := treatmentsB.map fun t => (jsIndexOf allTreatments t).getD 0
  let perPairWeights := effectStandardErrors.map fun se => (se ^ 2 + tau ^ 2)⁻¹
  let ses := (List.range effectStandardErrors.length).map fun ix =>
    match studies.get? ix with
    | none => JSVal.nan
    | some s =>
        let pairIndices := (List.range studies.length).filter fun g =>
          studies.get? g = some s
        let pairWeights := pairIndices.map fun g => (perPairWeights.getD g 0)⁻¹
        let corrected := (computeNewSEs pinv pairWeights).map JSVal.sqrt
        match jsIndexOf pairIndices ix with
        | none => JSVal.nan
        | some pos => corrected.getD pos JSVal.nan
  { standardErrors := ses, treatmentIndicesA := idxA, treatmentIndicesB := idxB,
    orderedTreatments := allTreatments }

/-! ## `_NMA`: the weighted least-squares network solver -/

/-- The errors the construction can surface (JavaScript `throw`s). -/
inductive NMAError : Type where
  | noStudies
  | emptyMatrix
  | lengthMismatch
  | countExceedsTotal
  | duplicateTreatments
  | absentTreatment
deriving DecidableEq

/-- The record returned by `_NMA`. -/
structure NMAData where
  consistentContrastEffects : List JSVal
  treatmentEffects : ℕ → ℕ → JSVal
  standardErrors : ℕ → ℕ → JSVal
  tau : JSVal
  q : JSVal
  dfQ : ℝ

/-- Point update of an ℕ-indexed matrix (`Matrix.prototype.set`). -/
def mset (M : ℕ → ℕ → JSVal) (i j : ℕ) (v : JSVal) : ℕ → ℕ → JSVal :=
  fun x y => if x = i ∧ y = j then v else M x y

/-- One iteration of the indirect-evidence closure loop of `_NMA`: the
four cells are read once at the top of the loop body, then up to three
conditional pairs of writes are performed with those stale reads. -/
def closureStep (M : ℕ → ℕ → JSVal) : ℕ × ℕ × ℕ → ℕ → ℕ → JSVal :=
  fun t =>
    let i := t.1
    let j := t.2.1
    let k := t.2.2
    let ij := M i j
    let ik := M i k
    let jk := M j k
    let kj := M k j
    let M1 := if !ik.isNaN && !jk.isNaN then
        mset (mset M i j (ik.sub jk)) j i (jk.sub ik) else M
    let M2 := if !ij.isNaN && !kj.isNaN then
        mset (mset M1 i k (ij.sub kj)) k i (kj.sub ij) else M1
    if !ik.isNaN && !ij.isNaN then
        mset (mset M2 j k (ik.sub ij)) k j (ij.sub ik) else M2

/-- The `(i, j, k)` triples visited by the closure loop, in loop order. -/
def tripleList (n : ℕ) : List (ℕ × ℕ × ℕ) :=
  (List.range n).flatMap fun i =>
    (List.range n).flatMap fun j =>
      (List.range n).map fun k => (i, j, k)

/-- The all-NaN poisoned `_NMA` result: a non-finite standard error (NaN
fed back through the tau re-weighting) propagates through the LU solve and
every derived cell; the degrees of freedom are pure label arithmetic and
stay real. -/
noncomputable def nanNMAData {L : Type} [DecidableEq L] (m : ℕ)
    (idxA idxB : List ℕ) (studies : List L) : NMAData :=
  let n := (jsDedup (idxA ++ idxB)).length
  { consistentContrastEffects := (List.range m).map fun _ => JSVal.nan
    treatmentEffects := fun _ _ => JSVal.nan
    standardErrors := fun _ _ => JSVal.nan
    tau := JSVal.nan
    q := JSVal.nan
    dfQ := computeDF1 studies - ((n : ℝ) - 1) }

open Classical in
/-- `_NMA` from `nma.js`: solve the weighted least-squares system for one
connected component.

* With zero contrasts the first `ml-matrix` construction throws
  (mljs/matrix#113, cited at the `studies.length` guard of
  `_generalizedNMA`): modelled by `.error .emptyMatrix`.
* The JavaScript length guard is transcribed as stated in the source
  (its third `&&` conjunct references an undefined variable, but that
  conjunct is unreachable from the library's own call sites).
* The dense inverse of `L - 1/n` is Mathlib's matrix inverse; the code
  only inverts this matrix where it is invertible (connected component,
  positive weights).
-/
noncomputable def NMA {L : Type} [DecidableEq L] (effects : List ℝ)
    (ses : List JSVal) (idxA idxB : List ℕ) (studies : List L) :
    Except NMAError NMAData :=
  let m := effects.length
  if m = 0 then .error .emptyMatrix
  else if m ≠ ses.length ∧ m ≠ idxA.length then .error .lengthMismatch
  else if ¬ (ses.all fun e => e.isNum && !e.eqZero) then
    .ok (nanNMAData m idxA idxB studies)
  else
    let sesR := ses.map JSVal.toReal
    let n := (jsDedup (idxA ++ idxB)).length
    let W : Matrix (Fin m) (Fin m) ℝ :=
      Matrix.diagonal fun r => ((sesR.getD r.val 0) ^ 2)⁻¹
    let B : Matrix (Fin m) (Fin n) ℝ := fun r c =>
      if idxA.getD r.val 0 = c.val then 1
      else if idxB.getD r.val 0 = c.val then -1 else 0
    let ones : Matrix (Fin n) (Fin n) ℝ := fun _ _ => 1
    let L0 := Bᵀ * W * B
    let LInv := (L0 - (n : ℝ)⁻¹ • ones)⁻¹ + (n : ℝ)⁻¹ • ones
    let Rm : Matrix (Fin n) (Fin n) ℝ := fun i j =>
      LInv i i + LInv j j - 2 * LInv i j
    let H := B * LInv * Bᵀ * W
    let consistent : List ℝ := (List.finRange m).map fun r =>
      ∑ c, H r c * effects.getD c.val 0
    let teInit := (List.range m).foldl
      (fun M r => mset M (idxA.getD r 0) (idxB.getD r 0)
        (JSVal.num (consistent.getD r 0)))
      (fun _ _ => JSVal.nan)
    let teMat := (tripleList n).foldl closureStep teInit
    let seMat : ℕ → ℕ → JSVal := fun x y =>
      if h : x < n ∧ y < n then JSVal.sqrt (JSVal.num (Rm ⟨x, h.1⟩ ⟨y, h.2⟩))
      else JSVal.nan
    let d : Fin m → ℝ := fun r => effects.getD r.val 0 - consistent.getD r.val 0
    let colD : Matrix (Fin m) (Fin 1) ℝ := fun r _ => d r
    let Q := (colDᵀ * W * colD) 0 0
    let df := computeDF1 studies - ((n : ℝ) - 1)
    let E : Matrix (Fin m) (Fin m) ℝ := fun r c =>
      if studies.get? r.val = studies.get? c.val then 1 else 0
    let eMod : Matrix (Fin m) (Fin m) ℝ := fun r c =>
      (B * Bᵀ) r c * (E r c / 2)
    let traceVal := Matrix.trace ((1 - H) * eMod * W)
    let tau := JSVal.sqrt (JSVal.max (JSVal.num 0)
      (JSVal.div (JSVal.num (Q - df)) (JSVal.num traceVal)))
    .ok { consistentContrastEffects := consistent.map JSVal.num
          treatmentEffects := teMat
          standardErrors := seMat
          tau := tau
          q := JSVal.num Q
          dfQ := df }

/-! ## `_generalizedNMA` and the odds-ratio entry point -/

/-- One study-level contrast record (`studyLevelEffects` entries). -/
structure StudyLevelEffect (L T : Type) where
  study : L
  treatment1 : T
  treatment2 : T
  effect : ℝ
  se : ℝ
  comparisonN : ℝ

/-- The record a contrast builder returns for one study. -/
structure Contrasts (T : Type) where
  treatmentsA : List T
  treatmentsB : List T
  effects : List ℝ
  standardErrors : List ℝ
  comparisonNs : List ℝ

/-- The `ComparisonStatistic` enum: the back-transformation applied to
modelled effects (`exp` for log odds ratios, identity for mean
differences). -/
inductive ComparisonStatistic : Type where
  | OR
  | MD

/-- The `transform` member of a `ComparisonStatistic`. -/
noncomputable def ComparisonStatistic.transform :
    ComparisonStatistic → JSVal → JSVal
  | .OR => JSVal.exp
  | .MD => fun v => v

/-- `_buildAllPairsORStatistics` from `nma.js`, with the Anscombe
increment `0.5`: all pairwise log odds ratios of one study's arms.
`_generalizedNMA` passes the study's sliced parameter arrays; here the
slicing (`armIxs` into the full count arrays) is applied first. -/
noncomputable def buildAllPairsORStatistics {T : Type} [Inhabited T]
    (positiveCounts totalCounts : List ℝ)
    (treatments : List T) (armIxs : List ℕ) : Contrasts T :=
  let pos := armIxs.map fun ix => positiveCounts.getD ix 0
  let tot := armIxs.map fun ix => totalCounts.getD ix 0
  let pairs := pairList treatments.length
  { treatmentsA := pairs.map fun p => jsGet treatments p.1
    treatmentsB := pairs.map fun p => jsGet treatments p.2
    effects := pairs.map fun p =>
      let pA := pos.getD p.1 0 + 0.5
      let nA := tot.getD p.1 0 - pos.getD p.1 0 + 0.5
      let pB := pos.getD p.2 0 + 0.5
      let nB := tot.getD p.2 0 - pos.getD p.2 0 + 0.5
      Real.log ((pA / nA) / (pB / nB))
    standardErrors := pairs.map fun p =>
      let pA := pos.getD p.1 0 + 0.5
      let nA := tot.getD p.1 0 - pos.getD p.1 0 + 0.5
      let pB := pos.getD p.2 0 + 0.5
      let nB := tot.getD p.2 0 - pos.getD p.2 0 + 0.5
      Real.sqrt (1 / pA + 1 / nA + 1 / pB + 1 / nB)
    comparisonNs := pairs.map fun p => tot.getD p.1 0 + tot.getD p.2 0 }

/-- The per-component result assembled inside `_generalizedNMA` (`n` is
the dimension of the two matrices, i.e. `treatmentEffects.rows`). -/
structure CompResult (L T : Type) where
  n : ℕ
  treatmentEffects : ℕ → ℕ → JSVal
  standardErrors : ℕ → ℕ → JSVal
  orderedTreatments : List T
  studyLevelEffects : List (StudyLevelEffect L T)
  q : JSVal
  dfQ : ℝ

/-- Error-propagating map over a list (the `components.map` of
`_generalizedNMA`, where a `throw` in any component aborts the call). -/
def listMapE {α β ε : Type} (f : α → Except ε β) : List α → Except ε (List β)
  | [] => .ok []
  | x :: xs =>
      match f x with
      | .error e => .error e
      | .ok y => (listMapE f xs).map fun ys => y :: ys

/-- The per-component body of `_generalizedNMA`: collect the component's
per-study contrasts, correct the standard errors, run the solver — twice
under random effects, re-deriving the prerequisites with the estimated
tau — and keep the *first* pass's Q and degrees of freedom alongside the
final pass's matrices.  A non-finite tau estimate poisons the re-weighted
pass exactly as in `nanNMAData`. -/
noncomputable def componentNMA {L T : Type} [DecidableEq L] [DecidableEq T]
    [Inhabited L] [Inhabited T] (pinv : PinvFun)
    (studies : List L) (treatments : List T)
    (build : List T → List ℕ → Contrasts T) (randomEffects : Bool)
    (comp : List T) : Except NMAError (CompResult L T) :=
  let componentIxs := (List.range treatments.length).filter fun ix =>
    jsGet treatments ix ∈ comp
  let uniqueStudiesInComponent :=
    jsDedup (componentIxs.map fun ix => jsGet studies ix)
  let pieces := uniqueStudiesInComponent.map fun s =>
    let studyIxs := (List.range studies.length).filter fun ix =>
      jsGet studies ix = s
    (s, build (studyIxs.map fun ix => jsGet treatments ix) studyIxs)
  let treatmentsA := pieces.flatMap fun p => p.2.treatmentsA
  let treatmentsB := pieces.flatMap fun p => p.2.treatmentsB
  let effects := pieces.flatMap fun p => p.2.effects
  let standardErrors := pieces.flatMap fun p => p.2.standardErrors
  let comparisonNs := pieces.flatMap fun p => p.2.comparisonNs
  let contrastStudies := pieces.flatMap fun p =>
    p.2.treatmentsA.map fun _ => p.1
  let studyLevelEffects := (List.range contrastStudies.length).map fun ix =>
    ({ study := jsGet contrastStudies ix
       treatment1 := jsGet treatmentsA ix
       treatment2 := jsGet treatmentsB ix
       effect := jsGet effects ix
       se := jsGet standardErrors ix
       comparisonN := jsGet comparisonNs ix } : StudyLevelEffect L T)
  let pre := computePrerequisites pinv standardErrors treatmentsA treatmentsB
    contrastStudies 0
  match NMA effects pre.standardErrors pre.treatmentIndicesA
      pre.treatmentIndicesB contrastStudies with
  | .error e => .error e
  | .ok firstPass =>
      let finalPass :=
        if randomEffects then
          match firstPass.tau with
          | JSVal.num t =>
              let preRF := computePrerequisites pinv standardErrors treatmentsA
                treatmentsB contrastStudies t
              NMA effects preRF.standardErrors preRF.treatmentIndicesA
                preRF.treatmentIndicesB contrastStudies
          | _ => .ok (nanNMAData effects.length pre.treatmentIndicesA
              pre.treatmentIndicesB contrastStudies)
        else .ok firstPass
      match finalPass with
      | .error e => .error e
      | .ok finalData =>
          .ok { n := pre.orderedTreatments.length
                treatmentEffects := finalData.treatmentEffects
                standardErrors := finalData.standardErrors
                orderedTreatments := pre.orderedTreatments
                studyLevelEffects := studyLevelEffects
                q := firstPass.q
                dfQ := firstPass.dfQ }

/-- One merge step of `_mergeComponentNMAResults`: the effect matrix is
grown from a NaN-initialised matrix (`Matrix.zeros(...).mul(NaN)`), the
standard-error matrix from a plain zero matrix (`Matrix.zeros(...)`), and
the two blocks are copied in with `setSubMatrix`.  Off-block cells
therefore stay NaN in the effect matrix and 0 in the SE matrix. -/
def mergeStep {L T : Type} (acc r : CompResult L T) : CompResult L T :=
  { n := acc.n + r.n
    treatmentEffects := fun x y =>
      if x < acc.n ∧ y < acc.n then acc.treatmentEffects x y
      else if acc.n ≤ x ∧ x < acc.n + r.n ∧ acc.n ≤ y ∧ y < acc.n + r.n then
        r.treatmentEffects (x - acc.n) (y - acc.n)
      else JSVal.nan
    standardErrors := fun x y =>
      if x < acc.n ∧ y < acc.n then acc.standardErrors x y
      else if acc.n ≤ x ∧ x < acc.n + r.n ∧ acc.n ≤ y ∧ y < acc.n + r.n then
        r.standardErrors (x - acc.n) (y - acc.n)
      else JSVal.num 0
    orderedTreatments := acc.orderedTreatments ++ r.orderedTreatments
    studyLevelEffects := acc.studyLevelEffects ++ r.studyLevelEffects
    q := acc.q.add r.q
    dfQ := acc.dfQ + r.dfQ }

/-- A junk empty component (the preconditions guarantee at least one
component, as the source comments note). -/
def emptyComp {L T : Type} : CompResult L T :=
  { n := 0, treatmentEffects := fun _ _ => JSVal.nan
    standardErrors := fun _ _ => JSVal.nan
    orderedTreatments := [], studyLevelEffects := []
    q := JSVal.num 0, dfQ := 0 }

/-- `_mergeComponentNMAResults` from `nma.js`. -/
def mergeComponentNMAResults {L T : Type} :
    List (CompResult L T) → CompResult L T
  | [] => emptyComp
  | r :: rs => rs.foldl mergeStep r

/-- The state held by a `NetworkMetaAnalysis` object. -/
structure NMAState (L T : Type) where
  treatments : List T
  n : ℕ
  te : ℕ → ℕ → JSVal
  se : ℕ → ℕ → JSVal
  studyLevelEffects : List (StudyLevelEffect L T)
  comparison : ComparisonStatistic
  q : JSVal
  dfQ : ℝ

/-- Assemble the `NetworkMetaAnalysis` constructor arguments from the
merged component results. -/
def mkState {L T : Type} (merged : CompResult L T)
    (comparison : ComparisonStatistic) : NMAState L T :=
  { treatments := merged.orderedTreatments
    n := merged.n
    te := merged.treatmentEffects
    se := merged.standardErrors
    studyLevelEffects := merged.studyLevelEffects
    comparison := comparison
    q := merged.q
    dfQ := merged.dfQ }

/-- `_generalizedNMA` from `nma.js`. -/
noncomputable def generalizedNMA {L T : Type} [DecidableEq L] [DecidableEq T]
    [Inhabited L] [Inhabited T] (pinv : PinvFun)
    (studies : List L) (treatments : List T)
    (build : List T → List ℕ → Contrasts T)
    (comparison : ComparisonStatistic) (randomEffects : Bool) :
    Except NMAError (NMAState L T) :=
  if studies.length = 0 then .error .noStudies
  else
    match listMapE
        (componentNMA pinv studies treatments build randomEffects)
        (getConnectedComponents studies treatments) with
    | .error e => .error e
    | .ok results => .ok (mkState (mergeComponentNMAResults results) comparison)

/-- `_preconditionUniqueTreatments` from `nma.js`: every study's arm
treatments must be pairwise distinct. -/
def preconditionUniqueTreatments {L T : Type} [DecidableEq L] [DecidableEq T]
    (studies : List L) (treatments : List T) : Except NMAError Unit :=
  if (jsDedup studies).all (fun s =>
      let armTreatments := ((studies.zip treatments).filter fun p => p.1 = s).map
        fun p => p.2
      armTreatments.length == (jsDedup armTreatments).length) then .ok ()
  else .error .duplicateTreatments

open Classical in
/-- `_ORNMAPreconditions` from `nma.js`. -/
noncomputable def ORNMAPreconditions {L T : Type} [DecidableEq L] [DecidableEq T]
    [Inhabited T] (studies : List L) (treatments : List T)
    (positiveCounts totalCounts : List ℝ) : Except NMAError Unit :=
  if studies.length ≠ treatments.length ∨
      studies.length ≠ positiveCounts.length ∨
      studies.length ≠ totalCounts.length then .error .lengthMismatch
  else if ∃ ix ∈ List.range positiveCounts.length,
      positiveCounts.getD ix 0 > totalCounts.getD ix 0 then
    .error .countExceedsTotal
  else preconditionUniqueTreatments studies treatments

/-- `oddsRatioNMA` from `nma.js` (the source defaults `randomEffects` to
`true`; the theorems pass it explicitly). -/
noncomputable def oddsRatioNMA {L T : Type} [DecidableEq L] [DecidableEq T]
    [Inhabited L] [Inhabited T] (pinv : PinvFun)
    (studies : List L) (treatments : List T)
    (positiveCounts totalCounts : List ℝ) (randomEffects : Bool := true) :
    Except NMAError (NMAState L T) :=
  match ORNMAPreconditions studies treatments positiveCounts totalCounts with
  | .error e => .error e
  | .ok _ => generalizedNMA pinv studies treatments
      (buildAllPairsORStatistics positiveCounts totalCounts) .OR randomEffects

/-! ## The results façade (`NetworkMetaAnalysis` methods)

The standard-normal distribution (`STD_NORMAL` from the `gaussian`
package) is an external collaborator.  Modelled from the spec: §6 lists
"a standard-normal distribution providing `inverseCDF(p)` and `cdf(x)`";
it is a pair of real functions, lifted to `JSVal` NaN-strictly and with
the CDF taking its limit values 1 and 0 at the infinities. -/

/-- The standard-normal collaborator: its CDF (`cdf`) and quantile
function (`ppf`). -/
structure StdDist where
  cdf : ℝ → ℝ
  ppf : ℝ → ℝ

/-- The collaborator CDF lifted to JavaScript numbers. -/
noncomputable def StdDist.cdfJS (d : StdDist) : JSVal → JSVal
  | .num x => .num (d.cdf x)
  | .posInf => .num 1
  | .negInf => .num 0
  | .nan => .nan

open Classical in
/-- `Math.log` (needed by `_computeISquared`). -/
noncomputable def JSVal.log : JSVal → JSVal
  | .num x => if x < 0 then .nan else if x = 0 then .negInf else .num (Real.log x)
  | .posInf => .posInf
  | .negInf => .nan
  | .nan => .nan

/-- The record returned by `_computeInferentialStatistics`. -/
structure InferResult where
  p : JSVal
  lower : JSVal
  upper : JSVal

/-- `_computeInferentialStatistics` from `nma.js`: two-sided Wald test
and confidence bounds, with the bounds individually back-transformed. -/
noncomputable def computeInferentialStatisticsFn (dist : StdDist)
    (effect standardError : JSVal) (transformation : JSVal → JSVal)
    (width : ℝ := 0.95) (nullEffect : ℝ := 0) : InferResult :=
  let alpha := 1 - width
  let zc := dist.ppf (1 - alpha / 2)
  let lowerBound := effect.sub ((JSVal.num zc).mul standardError)
  let upperBound := effect.add ((JSVal.num zc).mul standardError)
  let z := (effect.sub (JSVal.num nullEffect)).div standardError
  let p := (JSVal.num 2).mul ((JSVal.num 1).sub (dist.cdfJS z.abs))
  { p := p, lower := transformation lowerBound, upper := transformation upperBound }

/-- `coalesceNumeric` from `nma.js`. -/
def coalesceNumeric (x : JSVal) : JSVal := if x.isNaN then JSVal.num 0 else x

/-- `NetworkMetaAnalysis.getEffect`: back-transformed matrix cell, or a
throw when either treatment is absent. -/
noncomputable def NMAState.getEffect {L T : Type} [DecidableEq T]
    (st : NMAState L T) (a b : T) : Except NMAError JSVal :=
  match jsIndexOf st.treatments a, jsIndexOf st.treatments b with
  | some i, some j => .ok (st.comparison.transform (st.te i j))
  | _, _ => .error .absentTreatment

/-- `NetworkMetaAnalysis.computeInferentialStatistics`. -/
noncomputable def NMAState.computeInferentialStatistics {L T : Type}
    [DecidableEq T] (st : NMAState L T) (dist : StdDist) (a b : T)
    (width : ℝ) (nullEffect : ℝ := 0) : Except NMAError InferResult :=
  match jsIndexOf st.treatments a, jsIndexOf st.treatments b with
  | some i, some j => .ok (computeInferentialStatisticsFn dist (st.te i j)
      (st.se i j) st.comparison.transform width nullEffect)
  | _, _ => .error .absentTreatment

/-- One summand of a SUCRA p-score: the directionally weighted one-sided
p-value of cell `(i, j)` (the loop body of `computePScores`). -/
noncomputable def pScoreEntry {L T : Type} (dist : StdDist) (st : NMAState L T)
    (smallerBetter : Bool) (i j : ℕ) : JSVal :=
  let te := st.te i j
  let se := st.se i j
  let weight : ℝ := if te.eqZero then 0.5 else if te.gtZero then 1 else 0
  let pValue := (computeInferentialStatisticsFn dist te se
    st.comparison.transform 0.95 0).p
  if smallerBetter then
    (((JSVal.num weight).mul pValue).div (JSVal.num 2)).add
      ((JSVal.num (1 - weight)).mul
        ((JSVal.num 1).sub (pValue.div (JSVal.num 2))))
  else
    ((JSVal.num weight).mul
        ((JSVal.num 1).sub (pValue.div (JSVal.num 2)))).add
      ((JSVal.num (1 - weight)).mul (pValue.div (JSVal.num 2)))

/-- The unsorted p-score of treatment index `i`: the NaN-coalesced sum of
the row's entries divided by the count of non-NaN entries. -/
noncomputable def unsortedPScore {L T : Type} (dist : StdDist)
    (st : NMAState L T) (smallerBetter : Bool) (i : ℕ) : JSVal :=
  let entries := (List.range st.treatments.length).map
    (pScoreEntry dist st smallerBetter i)
  let presentCount := entries.countP fun e => !e.isNaN
  let total := entries.foldl
    (fun acc e => (coalesceNumeric acc).add (coalesceNumeric e)) (JSVal.num 0)
  total.div (JSVal.num presentCount)

/-- `NetworkMetaAnalysis.computePScores`: the treatment/score pairs sorted
descending by score (`Array.prototype.sort` with the numeric comparator,
modelled by a deterministic merge sort — the two agree whenever all scores
are finite, which the p-score theorems' hypotheses guarantee). -/
noncomputable def NMAState.computePScores {L T : Type} [Inhabited T]
    (st : NMAState L T) (dist : StdDist) (smallerBetter : Bool) :
    List (T × JSVal) :=
  let unsorted := (List.range st.treatments.length).map fun i =>
    (jsGet st.treatments i, unsortedPScore dist st smallerBetter i)
  unsorted.mergeSort fun a b => decide (b.2.toReal ≤ a.2.toReal)

/-- `NetworkMetaAnalysis._getRawStudyLevelEffects`: the study-level
contrasts touching `forTreatment`, direction-normalised (effect negated,
SE kept, treatments swapped). -/
def NMAState.rawStudyLevelEffects {L T : Type} [DecidableEq T]
    (st : NMAState L T) (forTreatment : T) : List (StudyLevelEffect L T) :=
  let directional := st.studyLevelEffects.filter
    fun e => e.treatment1 = forTreatment
  let inverted := (st.studyLevelEffects.filter
      fun e => e.treatment2 = forTreatment).map fun e =>
    { e with effect := -e.effect, treatment1 := e.treatment2,
             treatment2 := e.treatment1 }
  directional ++ inverted

/-- One comparison-adjusted study effect (the spread copy of a raw
study-level effect, `comparisonN` deleted and the effect replaced by the
transformed network-adjusted difference). -/
structure AdjustedEffect (L T : Type) where
  study : L
  treatment1 : T
  treatment2 : T
  effect : JSVal
  se : ℝ

/-- The record returned by `computeComparisonAdjustedEffects` (absent
asymmetry fields are `none`). -/
structure CAEResult (L T : Type) where
  effects : List (AdjustedEffect L T)
  leftFunnel : List (JSVal × JSVal)
  rightFunnel : List (JSVal × JSVal)
  asymmetryP : Option JSVal
  asymmetryTest : Option String

/-- `NetworkMetaAnalysis.computeComparisonAdjustedEffects`.  `linreg` is
the ordinary-least-squares collaborator (spec §6: "a simple
ordinary-least-squares routine with per-coefficient t-test p-values (used
only by the Egger test)"); the `try/catch` around it is modelled by its
`Except` result, and returns the intercept p-value on success.  With no
study-level contrast touching `treatment` the method returns `undefined`
(`none`) before any other work. -/
noncomputable def NMAState.computeComparisonAdjustedEffects {L T : Type}
    [DecidableEq T] (st : NMAState L T) (dist : StdDist)
    (linreg : List JSVal → List JSVal → Except Unit JSVal)
    (treatment : T) (level : ℝ := 0.95) : Option (CAEResult L T) :=
  let sle := st.rawStudyLevelEffects treatment
  if sle.isEmpty then none
  else
    let maxSE := sle.foldl (fun acc e => acc.max (JSVal.num e.se)) JSVal.negInf
    let funnelPoints : ℕ := 500
    let funnels := (List.range funnelPoints).map fun i =>
      let seIter := maxSE.mul (JSVal.num ((i : ℝ) / ((funnelPoints : ℝ) - 1)))
      let bounds := computeInferentialStatisticsFn dist (JSVal.num 0) seIter
        st.comparison.transform level 0
      ((bounds.lower, seIter), (bounds.upper, seIter))
    let adjustedEffects := sle.map fun sl =>
      let ti := (jsIndexOf st.treatments sl.treatment1).getD 0
      let tj := (jsIndexOf st.treatments sl.treatment2).getD 0
      let modeledEffect := st.te ti tj
      { study := sl.study, treatment1 := sl.treatment1,
        treatment2 := sl.treatment2,
        effect := st.comparison.transform
          ((JSVal.num (-sl.effect)).sub modeledEffect.neg),
        se := sl.se }
    let asym : Option JSVal × Option String :=
      if 5 ≤ sle.length then
        match linreg (adjustedEffects.map fun a => a.effect.div (JSVal.num a.se))
            (adjustedEffects.map fun a => jsInv1 a.se) with
        | .ok pv => (some pv, some "Egger")
        | .error _ => (none, none)
      else (none, none)
    some { effects := adjustedEffects
           leftFunnel := funnels.map fun f => f.1
           rightFunnel := funnels.map fun f => f.2
           asymmetryP := asym.1
           asymmetryTest := asym.2 }

/-- The record returned by `_computeISquared` (optional interval). -/
structure ISquaredResult where
  i2 : JSVal
  lower : Option JSVal
  upper : Option JSVal

open Classical in
/-- `v > c` for a JavaScript number against a real constant. -/
noncomputable def JSVal.gtR (v : JSVal) (c : ℝ) : Bool :=
  match v with
  | .num x => decide (c < x)
  | .posInf => true
  | _ => false

open Classical in
/-- `_computeISquared` from `nma.js` (Higgins–Thompson back-transform of
`H = √(Q/df)`).  The `if (!selogH)` falsiness check covers an undefined,
zero, or NaN `selogH`. -/
noncomputable def computeISquaredFn (dist : StdDist) (q : JSVal) (df : ℝ)
    (width : ℝ) : Option ISquaredResult :=
  if df = 0 then none
  else
    let bt : JSVal → JSVal := fun x => ((x.mul x).sub (JSVal.num 1)).div (x.mul x)
    let k := df + 1
    let H := (q.div (JSVal.num df)).sqrt
    let selogH : Option JSVal :=
      if q.gtR k then
        if 2 ≤ k then
          some (((JSVal.num 0.5).mul (q.log.sub (JSVal.num (Real.log (k - 1))))).div
            ((((JSVal.num 2).mul q).sqrt).sub (JSVal.num (Real.sqrt (2 * k - 3)))))
        else none
      else
        if 2 < k then
          some (JSVal.num (Real.sqrt
            (1 / (2 * (k - 2)) * (1 - 1 / (3 * (k - 2) ^ 2)))))
        else none
    let falsy := match selogH with
      | none => true
      | some v => v.eqZero || v.isNaN
    if falsy then some { i2 := bt (H.max (JSVal.num 1)), lower := none, upper := none }
    else
      let logH := (H.max (JSVal.num 1)).log
      let infer := computeInferentialStatisticsFn dist logH
        (selogH.getD JSVal.nan) JSVal.exp width 0
      some { i2 := bt (H.max (JSVal.num 1))
             lower := some (bt (infer.lower.max (JSVal.num 1)))
             upper := some (bt (infer.upper.max (JSVal.num 1))) }

/-- `NetworkMetaAnalysis.computeISquared`: feeds the stored network `Q`
and its degrees of freedom to `_computeISquared`. -/
noncomputable def NMAState.computeISquared {L T : Type} (st : NMAState L T)
    (dist : StdDist) (width : ℝ := 0.95) : Option ISquaredResult :=
  computeISquaredFn dist st.q st.dfQ width

/-! ## Evaluation lemmas for `JSVal` arithmetic -/

namespace JSVal

@[simp] theorem isNaN_num (x : ℝ) : (num x).isNaN = false := rfl

@[simp] theorem isNaN_nan : nan.isNaN = true := rfl

@[simp] theorem isNaN_posInf : posInf.isNaN = false := rfl

@[simp] theorem isNaN_negInf : negInf.isNaN = false := rfl

@[simp] theorem isNum_num (x : ℝ) : (num x).isNum = true := rfl

@[simp] theorem toReal_num (x : ℝ) : (num x).toReal = x := rfl

@[simp] theorem neg_num (x : ℝ) : (num x).neg = num (-x) := rfl

@[simp] theorem add_num (x y : ℝ) : (num x).add (num y) = num (x + y) := rfl

@[simp] theorem add_nan_left (v : JSVal) : nan.add v = nan := by cases v <;> rfl

@[simp] theorem add_nan_right (v : JSVal) : v.add nan = nan := by
  cases v <;> rfl

@[simp] theorem sub_num (x y : ℝ) : (num x).sub (num y) = num (x - y) := by
  simp [sub, add, neg, sub_eq_add_neg]

@[simp] theorem sub_nan_left (v : JSVal) : nan.sub v = nan := by cases v <;> rfl

@[simp] theorem sub_nan_right (v : JSVal) : v.sub nan = nan := by
  cases v <;> rfl

@[simp] theorem mul_num (x y : ℝ) : (num x).mul (num y) = num (x * y) := rfl

@[simp] theorem mul_nan_left (v : JSVal) : nan.mul v = nan := by cases v <;> rfl

@[simp] theorem mul_nan_right (v : JSVal) : v.mul nan = nan := by
  cases v <;> rfl

@[simp] theorem div_nan_left (v : JSVal) : nan.div v = nan := by cases v <;> rfl

@[simp] theorem div_nan_right (v : JSVal) : v.div nan = nan := by
  cases v <;> rfl

theorem div_num_of_ne {x y : ℝ} (h : y ≠ 0) :
    (num x).div (num y) = num (x / y) := by
  simp [div, h]

@[simp] theorem div_zero_zero : (num 0).div (num 0) = nan := by simp [div]

@[simp] theorem abs_num (x : ℝ) : (num x).abs = num |x| := rfl

@[simp] theorem abs_nan : nan.abs = nan := rfl

@[simp] theorem exp_num (x : ℝ) : (num x).exp = num (Real.exp x) := rfl

@[simp] theorem exp_nan : nan.exp = nan := rfl

theorem sqrt_num_of_nonneg {x : ℝ} (h : 0 ≤ x) :
    (num x).sqrt = num (Real.sqrt x) := by
  simp [sqrt, not_lt.mpr h]

@[simp] theorem sqrt_nan : nan.sqrt = nan := rfl

@[simp] theorem max_num (x y : ℝ) :
    (num x).max (num y) = num (if x ≤ y then y else x) := rfl

@[simp] theorem max_nan_left (v : JSVal) : nan.max v = nan := by cases v <;> rfl

@[simp] theorem max_nan_right (v : JSVal) : v.max nan = nan := by
  cases v <;> rfl

@[simp] theorem eqZero_num (x : ℝ) : (num x).eqZero = decide (x = 0) := rfl

@[simp] theorem eqZero_nan : nan.eqZero = false := rfl

@[simp] theorem gtZero_num (x : ℝ) : (num x).gtZero = decide (0 < x) := rfl

@[simp] theorem gtZero_nan : nan.gtZero = false := rfl

end JSVal

@[simp] theorem coalesceNumeric_num (x : ℝ) :
    coalesceNumeric (JSVal.num x) = JSVal.num x := rfl

@[simp] theorem coalesceNumeric_nan : coalesceNumeric JSVal.nan = JSVal.num 0 := rfl

@[simp] theorem cdfJS_num (d : StdDist) (x : ℝ) :
    d.cdfJS (JSVal.num x) = JSVal.num (d.cdf x) := rfl

@[simp] theorem cdfJS_nan (d : StdDist) : d.cdfJS JSVal.nan = JSVal.nan := rfl

@[simp] theorem cdfJS_posInf (d : StdDist) : d.cdfJS JSVal.posInf = JSVal.num 1 := rfl

@[simp] theorem cdfJS_negInf (d : StdDist) : d.cdfJS JSVal.negInf = JSVal.num 0 := rfl

/-! ## Claim C5: zero producible contrasts -/

/-- The OR preconditions accept the three-single-arm-study input of C5. -/
theorem orPre_c5 :
    ORNMAPreconditions [1, 2, 3] [7, 8, 9] ([1, 1, 1] : List ℝ)
      ([2, 2, 2] : List ℝ) = .ok () := by
  unfold ORNMAPreconditions
  rw [if_neg (by norm_num), if_neg ?hc]
  · rfl
  case hc =>
    rintro ⟨ix, hix, h⟩
    simp only [List.mem_range, List.length_cons, List.length_nil] at hix
    interval_cases ix <;> norm_num [List.getD] at h

/-- C5: constructing an NMA throws when no study yields any pairwise
contrast; `oddsRatioNMA` on three single-arm studies fails with the
empty-matrix error (the `ml-matrix` throw on the first zero-contrast
component), for either effects mode and any pseudoinverse library. -/
theorem claim5_zero_contrasts_throws (pinv : PinvFun) (re : Bool) :
    oddsRatioNMA pinv [1, 2, 3] [7, 8, 9] ([1, 1, 1] : List ℝ)
      ([2, 2, 2] : List ℝ) re = .error .emptyMatrix := by
  unfold oddsRatioNMA
  rw [orPre_c5]
  rfl

/-! ## Claim C8: duplicate treatment within a study -/

/-- C8: `oddsRatioNMA` with `studies = [1,1,2,2,2]` and
`treatments = ["A","C","D","B","D"]` (study 2 lists treatment `"D"`
twice) fails with the duplicate-treatments precondition error, before any
numeric work, for any counts passing the length and count checks — shown
here at well-formed counts — any effects mode and any pseudoinverse
library. -/
theorem claim8_duplicate_treatment_throws (pinv : PinvFun) (re : Bool) :
    oddsRatioNMA pinv [1, 1, 2, 2, 2] ["A", "C", "D", "B", "D"]
      ([1, 1, 1, 1, 1] : List ℝ) ([2, 2, 2, 2, 2] : List ℝ) re =
      .error .duplicateTreatments := by
  unfold oddsRatioNMA
  have hpre : ORNMAPreconditions [1, 1, 2, 2, 2] ["A", "C", "D", "B", "D"]
      ([1, 1, 1, 1, 1] : List ℝ) ([2, 2, 2, 2, 2] : List ℝ) =
      .error .duplicateTreatments := by
    unfold ORNMAPreconditions
    rw [if_neg (by norm_num), if_neg ?hc]
    · rfl
    case hc =>
      rintro ⟨ix, hix, h⟩
      simp only [List.mem_range, List.length_cons, List.length_nil] at hix
      interval_cases ix <;> norm_num [List.getD] at h
  rw [hpre]

/-! ## The block structure of `_mergeComponentNMAResults` -/

/-- The matrix dimensions of a list of component results. -/
def blockSizes {L T : Type} (rs : List (CompResult L T)) : List ℕ :=
  rs.map fun r => r.n

/-- The row/column offset at which component `k`'s block starts in the
merged matrices. -/
def blockOffset {L T : Type} (rs : List (CompResult L T)) (k : ℕ) : ℕ :=
  ((blockSizes rs).take k).sum

theorem foldl_mergeStep_n {L T : Type} (l : List (CompResult L T)) :
    ∀ acc : CompResult L T,
      (l.foldl mergeStep acc).n = acc.n + (blockSizes l).sum := by
  induction l with
  | nil => intro acc; simp [blockSizes]
  | cons r rest ih =>
      intro acc
      simp only [List.foldl_cons, ih, blockSizes, List.map_cons, List.sum_cons]
      show (mergeStep acc r).n + _ = _
      simp [mergeStep]
      ring

theorem foldl_mergeStep_preserve {L T : Type} (l : List (CompResult L T)) :
    ∀ (acc : CompResult L T) (x y : ℕ), x < acc.n → y < acc.n →
      (l.foldl mergeStep acc).treatmentEffects x y = acc.treatmentEffects x y ∧
      (l.foldl mergeStep acc).standardErrors x y = acc.standardErrors x y := by
  induction l with
  | nil => intro acc x y _ _; exact ⟨rfl, rfl⟩
  | cons r rest ih =>
      intro acc x y hx hy
      have hx2 : x < (mergeStep acc r).n := by
        simp only [mergeStep]; omega
      have hy2 : y < (mergeStep acc r).n := by
        simp only [mergeStep]; omega
      have h := ih (mergeStep acc r) x y hx2 hy2
      simp only [List.foldl_cons]
      refine ⟨h.1.trans ?_, h.2.trans ?_⟩ <;>
        simp [mergeStep, hx, hy]

theorem foldl_mergeStep_offBlock {L T : Type} (l : List (CompResult L T)) :
    ∀ (acc : CompResult L T) (k1 k2 dx dy : ℕ),
      k1 < l.length + 1 → k2 < l.length + 1 → k1 ≠ k2 →
      dx < ((acc :: l).getD k1 emptyComp).n →
      dy < ((acc :: l).getD k2 emptyComp).n →
      (l.foldl mergeStep acc).treatmentEffects
          (blockOffset (acc :: l) k1 + dx) (blockOffset (acc :: l) k2 + dy) =
        JSVal.nan ∧
      (l.foldl mergeStep acc).standardErrors
          (blockOffset (acc :: l) k1 + dx) (blockOffset (acc :: l) k2 + dy) =
        JSVal.num 0 := by
  induction l with
  | nil =>
      intro acc k1 k2 dx dy h1 h2 hne _ _
      simp only [List.length_nil] at h1 h2
      omega
  | cons r rest ih =>
      intro acc k1 k2 dx dy h1 h2 hne hdx hdy
      simp only [List.length_cons] at h1 h2
      simp only [List.foldl_cons]
      have haccn : (mergeStep acc r).n = acc.n + r.n := rfl
      match k1, k2, hne with
      | 0, 0, hne => exact absurd rfl hne
      | 1, 1, hne => exact absurd rfl hne
      | 0, 1, _ =>
          simp only [List.getD_cons_zero, List.getD_cons_succ] at hdx hdy
          have hoff1 : blockOffset (acc :: r :: rest) 0 = 0 := rfl
          have hoff2 : blockOffset (acc :: r :: rest) 1 = acc.n := by
            simp [blockOffset, blockSizes]
          rw [hoff1, hoff2, Nat.zero_add]
          have hpres := foldl_mergeStep_preserve rest (mergeStep acc r) dx
            (acc.n + dy) (by simp only [haccn]; omega) (by simp only [haccn]; omega)
          refine ⟨hpres.1.trans ?_, hpres.2.trans ?_⟩ <;>
            simp [mergeStep] <;> omega
      | 1, 0, _ =>
          simp only [List.getD_cons_zero, List.getD_cons_succ] at hdx hdy
          have hoff1 : blockOffset (acc :: r :: rest) 1 = acc.n := by
            simp [blockOffset, blockSizes]
          rw [hoff1, show blockOffset (acc :: r :: rest) 0 = 0 from rfl,
            Nat.zero_add]
          have hpres := foldl_mergeStep_preserve rest (mergeStep acc r)
            (acc.n + dx) dy (by simp only [haccn]; omega) (by simp only [haccn]; omega)
          refine ⟨hpres.1.trans ?_, hpres.2.trans ?_⟩ <;>
            simp [mergeStep] <;> omega
      | 0, k2 + 2, _ =>
          simp only [List.getD_cons_zero, List.getD_cons_succ] at hdx hdy
          have h := ih (mergeStep acc r) 0 (k2 + 1) dx dy
            (by omega)
            (by omega)
            (by omega)
            (by simp only [List.getD_cons_zero, haccn]; omega)
            (by simp only [List.getD_cons_succ]; exact hdy)
          have hoffR : blockOffset (acc :: r :: rest) (k2 + 2) =
              blockOffset (mergeStep acc r :: rest) (k2 + 1) := by
            simp [blockOffset, blockSizes, haccn]; omega
          rw [show blockOffset (mergeStep acc r :: rest) 0 = 0 from rfl,
            Nat.zero_add] at h
          rw [show blockOffset (acc :: r :: rest) 0 = 0 from rfl,
            Nat.zero_add, hoffR]
          exact h
      | 1, k2 + 2, _ =>
          simp only [List.getD_cons_zero, List.getD_cons_succ] at hdx hdy
          have h := ih (mergeStep acc r) 0 (k2 + 1) (acc.n + dx) dy
            (by omega)
            (by omega)
            (by omega)
            (by simp only [List.getD_cons_zero, haccn]; omega)
            (by simp only [List.getD_cons_succ]; exact hdy)
          have hoffL : blockOffset (acc :: r :: rest) 1 + dx =
              blockOffset (mergeStep acc r :: rest) 0 + (acc.n + dx) := by
            simp [blockOffset, blockSizes]
          have hoffR : blockOffset (acc :: r :: rest) (k2 + 2) =
              blockOffset (mergeStep acc r :: rest) (k2 + 1) := by
            simp [blockOffset, blockSizes, haccn]; omega
          rw [hoffL, hoffR]
          exact h
      | k1 + 2, 0, _ =>
          simp only [List.getD_cons_zero, List.getD_cons_succ] at hdx hdy
          have h := ih (mergeStep acc r) (k1 + 1) 0 dx dy
            (by omega)
            (by omega)
            (by omega)
            (by simp only [List.getD_cons_succ]; exact hdx)
            (by simp only [List.getD_cons_zero, haccn]; omega)
          have hoffL : blockOffset (acc :: r :: rest) (k1 + 2) =
              blockOffset (mergeStep acc r :: rest) (k1 + 1) := by
            simp [blockOffset, blockSizes, haccn]; omega
          rw [show blockOffset (mergeStep acc r :: rest) 0 = 0 from rfl,
            Nat.zero_add] at h
          rw [show blockOffset (acc :: r :: rest) 0 = 0 from rfl,
            Nat.zero_add, hoffL]
          exact h
      | k1 + 2, 1, _ =>
          simp only [List.getD_cons_zero, List.getD_cons_succ] at hdx hdy
          have h := ih (mergeStep acc r) (k1 + 1) 0 dx (acc.n + dy)
            (by omega)
            (by omega)
            (by omega)
            (by simp only [List.getD_cons_succ]; exact hdx)
            (by simp only [List.getD_cons_zero, haccn]; omega)
          have hoffL : blockOffset (acc :: r :: rest) (k1 + 2) =
              blockOffset (mergeStep acc r :: rest) (k1 + 1) := by
            simp [blockOffset, blockSizes, haccn]; omega
          have hoffR : blockOffset (acc :: r :: rest) 1 + dy =
              blockOffset (mergeStep acc r :: rest) 0 + (acc.n + dy) := by
            simp [blockOffset, blockSizes]
          rw [hoffL, hoffR]
          exact h
      | k1 + 2, k2 + 2, hne =>
          simp only [List.getD_cons_succ] at hdx hdy
          have h := ih (mergeStep acc r) (k1 + 1) (k2 + 1) dx dy
            (by omega)
            (by omega)
            (by omega)
            (by simp only [List.getD_cons_succ]; exact hdx)
            (by simp only [List.getD_cons_succ]; exact hdy)
          have hoffL : blockOffset (acc :: r :: rest) (k1 + 2) =
              blockOffset (mergeStep acc r :: rest) (k1 + 1) := by
            simp [blockOffset, blockSizes, haccn]; omega
          have hoffR : blockOffset (acc :: r :: rest) (k2 + 2) =
              blockOffset (mergeStep acc r :: rest) (k2 + 1) := by
            simp [blockOffset, blockSizes, haccn]; omega
          rw [hoffL, hoffR]
          exact h

theorem jsIndexOf_nil {α : Type} [DecidableEq α] (a : α) :
    jsIndexOf [] a = none := rfl

theorem jsIndexOf_cons {α : Type} [DecidableEq α] (x : α) (xs : List α) (a : α) :
    jsIndexOf (x :: xs) a =
      if x = a then some 0 else (jsIndexOf xs a).map (· + 1) := rfl

theorem jsIndexOf_append_of_mem {α : Type} [DecidableEq α] {a : α}
    {l1 : List α} (l2 : List α) (h : a ∈ l1) :
    jsIndexOf (l1 ++ l2) a = jsIndexOf l1 a := by
  induction l1 with
  | nil => cases h
  | cons x xs ih =>
      by_cases hx : x = a
      · simp [jsIndexOf_cons, hx]
      · rcases List.mem_cons.mp h with heq | hmem
        · exact absurd heq.symm hx
        · simp [jsIndexOf_cons, hx, ih hmem]

theorem jsIndexOf_append_of_not_mem {α : Type} [DecidableEq α] {a : α}
    {l1 : List α} (l2 : List α) (h : a ∉ l1) :
    jsIndexOf (l1 ++ l2) a = (jsIndexOf l2 a).map (· + l1.length) := by
  induction l1 with
  | nil =>
      simp only [List.nil_append, List.length_nil]
      rcases jsIndexOf l2 a with _ | i <;> simp
  | cons x xs ih =>
      have hx : x ≠ a := fun hxa => h (hxa ▸ List.mem_cons_self x xs)
      have hxs : a ∉ xs := fun hmem => h (List.mem_cons_of_mem x hmem)
      rw [List.cons_append, jsIndexOf_cons, if_neg hx, ih hxs]
      rcases jsIndexOf l2 a with _ | i
      · rfl
      · simp [Nat.add_assoc]

theorem jsIndexOf_mem_some {α : Type} [DecidableEq α] {a : α} {l : List α}
    (h : a ∈ l) : ∃ i, jsIndexOf l a = some i ∧ i < l.length := by
  induction l with
  | nil => cases h
  | cons x xs ih =>
      by_cases hx : x = a
      · exact ⟨0, by simp [jsIndexOf_cons, hx], by simp⟩
      · rcases List.mem_cons.mp h with heq | hmem
        · exact absurd heq.symm hx
        · obtain ⟨i, hi, hlt⟩ := ih hmem
          refine ⟨i + 1, by simp [jsIndexOf_cons, hx, hi], ?_⟩
          simp only [List.length_cons]
          omega

/-- The merged ordered-treatment list is the concatenation of the
per-component lists. -/
theorem foldl_mergeStep_treatments {L T : Type} (l : List (CompResult L T)) :
    ∀ acc : CompResult L T,
      (l.foldl mergeStep acc).orderedTreatments =
        acc.orderedTreatments ++ l.flatMap (fun r => r.orderedTreatments) := by
  induction l with
  | nil => intro acc; simp
  | cons r rest ih =>
      intro acc
      simp only [List.foldl_cons, ih, List.flatMap_cons]
      show (mergeStep acc r).orderedTreatments ++ _ = _
      simp [mergeStep]

theorem merge_treatments {L T : Type} (r : CompResult L T)
    (rest : List (CompResult L T)) :
    (mergeComponentNMAResults (r :: rest)).orderedTreatments =
      (r :: rest).flatMap fun c => c.orderedTreatments := by
  show (rest.foldl mergeStep r).orderedTreatments = _
  rw [foldl_mergeStep_treatments, List.flatMap_cons]

/-- Index of a component-`k` treatment inside the concatenated treatment
list, assuming it does not occur in any earlier component. -/
theorem jsIndexOf_flatMap_block {T : Type} [DecidableEq T] {a : T} :
    ∀ (rs : List (List T)) (k : ℕ), k < rs.length → a ∈ rs.getD k [] →
      (∀ i, i < k → a ∉ rs.getD i []) →
      ∃ dx, jsIndexOf (rs.flatMap id) a =
          some (((rs.take k).map List.length).sum + dx) ∧
        dx < (rs.getD k []).length := by
  intro rs
  induction rs with
  | nil => intro k hk; simp at hk
  | cons r rest ih =>
      intro k hk ha hnot
      match k with
      | 0 =>
          simp only [List.getD_cons_zero] at ha
          obtain ⟨i, hi, hlt⟩ := jsIndexOf_mem_some ha
          refine ⟨i, ?_, hlt⟩
          simp only [List.flatMap_cons, id]
          rw [jsIndexOf_append_of_mem _ ha, hi]
          simp
      | k + 1 =>
          simp only [List.length_cons] at hk
          simp only [List.getD_cons_succ] at ha
          have hnr : a ∉ r := by simpa using hnot 0 (by omega)
          obtain ⟨dx, hdx, hlt⟩ := ih k (by omega) ha
            (fun i hi => by simpa using hnot (i + 1) (by omega))
          refine ⟨dx, ?_, hlt⟩
          simp only [List.flatMap_cons, id]
          rw [jsIndexOf_append_of_not_mem _ hnr, hdx]
          simp only [Option.map_some', List.take_succ_cons, List.map_cons,
            List.sum_cons]
          congr 1
          omega

/-- Off-block cells of the merged matrices: NaN in the effect matrix,
`0` in the standard-error matrix. -/
theorem merge_offBlock {L T : Type} (rs : List (CompResult L T))
    (k1 k2 dx dy : ℕ) (h1 : k1 < rs.length) (h2 : k2 < rs.length)
    (hne : k1 ≠ k2) (hdx : dx < (rs.getD k1 emptyComp).n)
    (hdy : dy < (rs.getD k2 emptyComp).n) :
    (mergeComponentNMAResults rs).treatmentEffects
        (blockOffset rs k1 + dx) (blockOffset rs k2 + dy) = JSVal.nan ∧
    (mergeComponentNMAResults rs).standardErrors
        (blockOffset rs k1 + dx) (blockOffset rs k2 + dy) = JSVal.num 0 := by
  match rs, h1, h2 with
  | r :: rest, h1, h2 =>
      exact foldl_mergeStep_offBlock rest r k1 k2 dx dy
        (by simpa using h1) (by simpa using h2) hne hdx hdy

/-- The back-transformation of either comparison statistic is
NaN-preserving. -/
theorem transform_nan (c : ComparisonStatistic) :
    c.transform JSVal.nan = JSVal.nan := by
  cases c <;> rfl

theorem getD_map_orderedTreatments {L T : Type}
    (rs : List (CompResult L T)) (k : ℕ) :
    (rs.map fun r => r.orderedTreatments).getD k [] =
      (rs.getD k emptyComp).orderedTreatments := by
  induction rs generalizing k with
  | nil => cases k <;> rfl
  | cons r rest ih =>
      cases k with
      | zero => rfl
      | succ k =>
          rw [List.map_cons, List.getD_cons_succ, List.getD_cons_succ]
          exact ih k

theorem take_length_sum_eq_blockOffset {L T : Type}
    {rs : List (CompResult L T)}
    (hsz : ∀ r ∈ rs, r.orderedTreatments.length = r.n) (k : ℕ) :
    (((rs.map fun r => r.orderedTreatments).take k).map List.length).sum =
      blockOffset rs k := by
  rw [← List.map_take, List.map_map, blockOffset, blockSizes, ← List.map_take]
  congr 1
  apply List.map_congr_left
  intro r hr
  exact hsz r (List.mem_of_mem_take hr)

/-- Under the construction invariants, the merged-list index of a
component-`k` treatment is its block offset plus its index within the
component. -/
theorem jsIndexOf_merged {L T : Type} [DecidableEq T]
    {rs : List (CompResult L T)} {t : T} {k : ℕ}
    (hk : k < rs.length)
    (hsz : ∀ r ∈ rs, r.orderedTreatments.length = r.n)
    (ht : t ∈ (rs.getD k emptyComp).orderedTreatments)
    (hnot : ∀ i, i < k → t ∉ (rs.getD i emptyComp).orderedTreatments) :
    ∃ dx, jsIndexOf (mergeComponentNMAResults rs).orderedTreatments t =
        some (blockOffset rs k + dx) ∧ dx < (rs.getD k emptyComp).n := by
  match rs, hk with
  | r :: rest, hk =>
      have hflat : (mergeComponentNMAResults (r :: rest)).orderedTreatments =
          ((r :: rest).map fun c => c.orderedTreatments).flatMap id := by
        rw [merge_treatments, List.flatMap_map]
        rfl
      obtain ⟨dx, hdx, hlt⟩ := jsIndexOf_flatMap_block
        ((r :: rest).map fun c => c.orderedTreatments) k
        (by simpa using hk)
        (by rw [getD_map_orderedTreatments]; exact ht)
        (fun i hi => by rw [getD_map_orderedTreatments]; exact hnot i hi)
      refine ⟨dx, ?_, ?_⟩
      · rw [hflat, hdx, take_length_sum_eq_blockOffset hsz]
      · rw [getD_map_orderedTreatments] at hlt
        have hgetd : (r :: rest).getD k emptyComp = (r :: rest)[k] := by
          rw [List.getD_eq_getElem?_getD, List.getElem?_eq_getElem hk]
          rfl
        rw [← hsz ((r :: rest).getD k emptyComp)
          (by rw [hgetd]; exact List.getElem_mem hk)]
        exact hlt

/-! ## Claim C3 (corrected): off-block cells of the merged matrices -/

/-- A one-treatment component result used as a concrete counterexample
input (its matrices are the 1×1 zero matrix). -/
def compUnit (t : ℕ) : CompResult ℕ ℕ :=
  { n := 1
    treatmentEffects := fun _ _ => JSVal.num 0
    standardErrors := fun _ _ => JSVal.num 0
    orderedTreatments := [t]
    studyLevelEffects := []
    q := JSVal.num 0
    dfQ := 0 }

/-- C3, counterexample: merging two one-treatment components puts NaN in
the off-block cell of the *effect* matrix but `0` — not NaN — in the same
cell of the *standard-error* matrix, refuting the claim that both
matrices hold NaN off-block. -/
theorem claim3_counterexample :
    (mergeComponentNMAResults [compUnit 0, compUnit 1]).treatmentEffects 0 1 =
      JSVal.nan ∧
    (mergeComponentNMAResults [compUnit 0, compUnit 1]).standardErrors 0 1 =
      JSVal.num 0 ∧
    JSVal.num 0 ≠ JSVal.nan := by
  refine ⟨rfl, rfl, ?_⟩
  intro h
  exact JSVal.noConfusion h

/-- C3, amended: whenever the network has more than one connected
component, every off-block cell of the merged *effect* matrix is NaN,
while the corresponding cell of the merged *standard-error* matrix is `0`
(the SE matrix is grown from `Matrix.zeros` without the `.mul(NaN)`
applied to the effect matrix). -/
theorem claim3_amended {L T : Type} (rs : List (CompResult L T))
    (k1 k2 dx dy : ℕ) (hcomp : 1 < rs.length)
    (h1 : k1 < rs.length) (h2 : k2 < rs.length) (hne : k1 ≠ k2)
    (hdx : dx < (rs.getD k1 emptyComp).n)
    (hdy : dy < (rs.getD k2 emptyComp).n) :
    (mergeComponentNMAResults rs).treatmentEffects
        (blockOffset rs k1 + dx) (blockOffset rs k2 + dy) = JSVal.nan ∧
    (mergeComponentNMAResults rs).standardErrors
        (blockOffset rs k1 + dx) (blockOffset rs k2 + dy) = JSVal.num 0 :=
  merge_offBlock rs k1 k2 dx dy h1 h2 hne hdx hdy

/-- Witness for the amended C3 at a concrete two-component input. -/
theorem claim3_amended_witness :
    (mergeComponentNMAResults [compUnit 0, compUnit 1]).treatmentEffects
        (blockOffset [compUnit 0, compUnit 1] 0 + 0)
        (blockOffset [compUnit 0, compUnit 1] 1 + 0) = JSVal.nan ∧
    (mergeComponentNMAResults [compUnit 0, compUnit 1]).standardErrors
        (blockOffset [compUnit 0, compUnit 1] 0 + 0)
        (blockOffset [compUnit 0, compUnit 1] 1 + 0) = JSVal.num 0 :=
  claim3_amended [compUnit 0, compUnit 1] 0 1 0 0 (by decide) (by decide)
    (by decide) (by decide) (by decide) (by decide)

/-! ## Claim C4: cross-component queries return NaN without throwing -/

/-- C4: for treatments `a`, `b` taken from two *different* components of
the merged result (under the construction invariants: per-component
matrix dimension equals its treatment count, and a treatment of one
component does not occur in earlier components), `getEffect` returns NaN
and `computeInferentialStatistics` returns `{p, lower, upper}` all NaN —
and neither call throws (`.ok`, not `.error`). -/
theorem claim4_cross_component_nan {L T : Type} [DecidableEq T]
    (rs : List (CompResult L T)) (comparison : ComparisonStatistic)
    (dist : StdDist) (a b : T) (k1 k2 : ℕ) (width nullEffect : ℝ)
    (h1 : k1 < rs.length) (h2 : k2 < rs.length) (hne : k1 ≠ k2)
    (hsz : ∀ r ∈ rs, r.orderedTreatments.length = r.n)
    (ha : a ∈ (rs.getD k1 emptyComp).orderedTreatments)
    (hb : b ∈ (rs.getD k2 emptyComp).orderedTreatments)
    (hnotA : ∀ i, i < k1 → a ∉ (rs.getD i emptyComp).orderedTreatments)
    (hnotB : ∀ i, i < k2 → b ∉ (rs.getD i emptyComp).orderedTreatments) :
    (mkState (mergeComponentNMAResults rs) comparison).getEffect a b =
      .ok JSVal.nan ∧
    (mkState (mergeComponentNMAResults rs) comparison).computeInferentialStatistics
        dist a b width nullEffect =
      .ok ⟨JSVal.nan, JSVal.nan, JSVal.nan⟩ := by
  obtain ⟨dx, hdxEq, hdxLt⟩ := jsIndexOf_merged h1 hsz ha hnotA
  obtain ⟨dy, hdyEq, hdyLt⟩ := jsIndexOf_merged h2 hsz hb hnotB
  have hcell := merge_offBlock rs k1 k2 dx dy h1 h2 hne hdxLt hdyLt
  have hstTr : (mkState (mergeComponentNMAResults rs) comparison).treatments =
      (mergeComponentNMAResults rs).orderedTreatments := rfl
  constructor
  · rw [NMAState.getEffect, hstTr, hdxEq, hdyEq]
    show Except.ok (comparison.transform
      ((mergeComponentNMAResults rs).treatmentEffects
        (blockOffset rs k1 + dx) (blockOffset rs k2 + dy))) = _
    rw [hcell.1, transform_nan]
  · rw [NMAState.computeInferentialStatistics, hstTr, hdxEq, hdyEq]
    show Except.ok (computeInferentialStatisticsFn dist
      ((mergeComponentNMAResults rs).treatmentEffects
        (blockOffset rs k1 + dx) (blockOffset rs k2 + dy))
      ((mergeComponentNMAResults rs).standardErrors
        (blockOffset rs k1 + dx) (blockOffset rs k2 + dy))
      comparison.transform width nullEffect) = _
    rw [hcell.1]
    simp [computeInferentialStatisticsFn, transform_nan]

/-- Witness for C4 at a concrete two-component merged state. -/
theorem claim4_witness :
    (mkState (mergeComponentNMAResults [compUnit 0, compUnit 1])
        ComparisonStatistic.OR).getEffect 0 1 = .ok JSVal.nan ∧
    (mkState (mergeComponentNMAResults [compUnit 0, compUnit 1])
        ComparisonStatistic.OR).computeInferentialStatistics
        ⟨fun _ => 1 / 2, fun _ => 0⟩ 0 1 (95 / 100) 0 =
      .ok ⟨JSVal.nan, JSVal.nan, JSVal.nan⟩ :=
  claim4_cross_component_nan [compUnit 0, compUnit 1] ComparisonStatistic.OR
    ⟨fun _ => 1 / 2, fun _ => 0⟩ 0 1 0 1 (95 / 100) 0 (by decide) (by decide)
    (by decide) (by decide) (by decide) (by decide)
    (fun i hi => absurd hi (by omega)) (fun i hi => by interval_cases i <;> decide)

/-! ## Claim C10: `computeComparisonAdjustedEffects` on untouched treatments -/

theorem jsIndexOf_eq_none {α : Type} [DecidableEq α] {a : α} {l : List α}
    (h : a ∉ l) : jsIndexOf l a = none := by
  induction l with
  | nil => rfl
  | cons x xs ih =>
      have hx : x ≠ a := fun hxa => h (hxa ▸ List.mem_cons_self x xs)
      have hxs : a ∉ xs := fun hmem => h (List.mem_cons_of_mem x hmem)
      rw [jsIndexOf_cons, if_neg hx, ih hxs]
      rfl

theorem rawStudyLevelEffects_eq_nil {L T : Type} [DecidableEq T]
    (st : NMAState L T) (t : T)
    (hnone : ∀ e ∈ st.studyLevelEffects, e.treatment1 ≠ t ∧ e.treatment2 ≠ t) :
    st.rawStudyLevelEffects t = [] := by
  unfold NMAState.rawStudyLevelEffects
  have h1 : st.studyLevelEffects.filter (fun e => decide (e.treatment1 = t)) = [] := by
    rw [List.filter_eq_nil_iff]
    intro e he
    simp [(hnone e he).1]
  have h2 : st.studyLevelEffects.filter (fun e => decide (e.treatment2 = t)) = [] := by
    rw [List.filter_eq_nil_iff]
    intro e he
    simp [(hnone e he).2]
  simp only [h1, h2, List.map_nil, List.append_nil]

/-- C10: a treatment touched by no study-level contrast gets `undefined`
(`none`) from `computeComparisonAdjustedEffects` — no throw — while an
absent treatment makes `getEffect` and `computeInferentialStatistics`
throw. -/
theorem claim10_untouched_treatment {L T : Type} [DecidableEq T]
    (st : NMAState L T) (dist : StdDist)
    (linreg : List JSVal → List JSVal → Except Unit JSVal)
    (t b : T) (level width : ℝ)
    (hnone : ∀ e ∈ st.studyLevelEffects, e.treatment1 ≠ t ∧ e.treatment2 ≠ t)
    (habsent : t ∉ st.treatments) :
    st.computeComparisonAdjustedEffects dist linreg t level = none ∧
    st.getEffect t b = .error .absentTreatment ∧
    st.computeInferentialStatistics dist t b width 0 =
      .error .absentTreatment := by
  refine ⟨?_, ?_, ?_⟩
  · unfold NMAState.computeComparisonAdjustedEffects
    rw [rawStudyLevelEffects_eq_nil st t hnone]
    rfl
  · unfold NMAState.getEffect
    rw [jsIndexOf_eq_none habsent]
  · unfold NMAState.computeInferentialStatistics
    rw [jsIndexOf_eq_none habsent]

/-- A minimal one-treatment state used by witnesses. -/
def stateUnit : NMAState ℕ ℕ :=
  { treatments := [0]
    n := 1
    te := fun _ _ => JSVal.num 0
    se := fun _ _ => JSVal.num 0
    studyLevelEffects := []
    comparison := ComparisonStatistic.MD
    q := JSVal.num 0
    dfQ := 0 }

/-- Witness for C10 at a concrete state and an absent treatment. -/
theorem claim10_witness :
    stateUnit.computeComparisonAdjustedEffects ⟨fun _ => 1 / 2, fun _ => 0⟩
        (fun _ _ => .error ()) 5 (95 / 100) = none ∧
    stateUnit.getEffect 5 0 = .error .absentTreatment ∧
    stateUnit.computeInferentialStatistics ⟨fun _ => 1 / 2, fun _ => 0⟩ 5 0
        (95 / 100) 0 = .error .absentTreatment :=
  claim10_untouched_treatment stateUnit ⟨fun _ => 1 / 2, fun _ => 0⟩
    (fun _ _ => .error ()) 5 0 (95 / 100) (95 / 100)
    (fun e he => absurd he (List.not_mem_nil e)) (by decide)

/-! ## Claim C2 (corrected): the degrees of freedom attached to Q -/

/-- The degrees-of-freedom formula asserted by the spec (written from the
spec's words, for comparison with the code):
`2·Σ(1/C(study_arm_count, 2))` summed per distinct study label, minus
`(nTreatments − 1)`. -/
noncomputable def claimedDF (armCounts : List ℕ) (nTreatments : ℕ) : ℝ :=
  2 * (armCounts.map fun k => 1 / (Nat.choose k 2 : ℝ)).sum -
    ((nTreatments : ℝ) - 1)

/-- `invertNChoose2` really does invert `k ↦ k(k-1)/2` for the contrast
multiplicities arising from a `k`-arm study. -/
theorem invertNChoose2_count {c k : ℕ} (hc : 1 ≤ c)
    (h : 2 * c = k * (k - 1)) : invertNChoose2 (c : ℝ) = k := by
  have hk2 : 2 ≤ k := by
    rcases k with _ | _ | k
    · simp at h; omega
    · simp at h; omega
    · omega
  obtain ⟨m, rfl⟩ : ∃ m, k = m + 2 := ⟨k - 2, by omega⟩
  have hc2 : 2 * c = (m + 2) * (m + 1) := by
    have : m + 2 - 1 = m + 1 := by omega
    rw [this] at h
    exact h
  have hsq : 8 * c + 1 = (2 * m + 3) ^ 2 := by
    calc 8 * c + 1 = 4 * (2 * c) + 1 := by ring
    _ = 4 * ((m + 2) * (m + 1)) + 1 := by rw [hc2]
    _ = (2 * m + 3) ^ 2 := by ring
  unfold invertNChoose2
  have hcast : (8 : ℝ) * c + 1 = ((2 * m + 3 : ℕ) : ℝ) ^ 2 := by
    push_cast
    have := congrArg (fun n : ℕ => (n : ℝ)) hsq
    push_cast at this
    linarith
  rw [hcast, Real.sqrt_sq (by positivity)]
  push_cast
  ring

/-- C2, amended: the degrees of freedom attached to Cochran's Q by the
solver are `Σ_{distinct studies}(arm_count − 1) − (nTreatments − 1)` —
equivalently `2·Σ_contrasts(1/arm_count) − (nTreatments − 1)` — not the
spec's `2·Σ(1/C(arm_count, 2)) − (nTreatments − 1)`.  `k` assigns each
study label its arm count; the hypothesis states that each label occurs
once per pair of its arms, as the contrast builders guarantee. -/
theorem claim2_amended {L : Type} [DecidableEq L] (studies : List L)
    (k : L → ℕ) (effects : List ℝ) (ses : List JSVal)
    (idxA idxB : List ℕ) (d : NMAData)
    (hmult : ∀ s ∈ studies, 2 * studies.count s = k s * (k s - 1))
    (hok : NMA effects ses idxA idxB studies = .ok d) :
    d.dfQ = (∑ s ∈ studies.toFinset, ((k s : ℝ) - 1)) -
      (((jsDedup (idxA ++ idxB)).length : ℝ) - 1) := by
  have hdf1 : computeDF1 studies = ∑ s ∈ studies.toFinset, ((k s : ℝ) - 1) := by
    unfold computeDF1
    have hmap : (studies.map fun s => 1 / invertNChoose2 (studies.count s)) =
        studies.map fun s => 1 / (k s : ℝ) := by
      apply List.map_congr_left
      intro s hs
      rw [invertNChoose2_count (List.count_pos_iff.mpr hs) (hmult s hs)]
    rw [hmap, Finset.sum_list_map_count, Finset.mul_sum]
    apply Finset.sum_congr rfl
    intro s hs
    have hsmem : s ∈ studies := List.mem_toFinset.mp hs
    have hkpos : 2 ≤ k s := by
      have h := hmult s hsmem
      have hc : 1 ≤ studies.count s := List.count_pos_iff.mpr hsmem
      rcases hk : k s with _ | _ | m
      · rw [hk] at h; simp at h; omega
      · rw [hk] at h; simp at h; omega
      · omega
    have hknz : (k s : ℝ) ≠ 0 := by positivity
    rw [nsmul_eq_mul]
    have h := hmult s hsmem
    have hcast : 2 * (studies.count s : ℝ) = (k s : ℝ) * ((k s : ℝ) - 1) := by
      have := congrArg (fun n : ℕ => (n : ℝ)) h
      push_cast [Nat.cast_sub (by omega : 1 ≤ k s)] at this
      linarith
    field_simp
    linarith [hcast]
  simp only [NMA] at hok
  split_ifs at hok
  all_goals
    first
    | exact Except.noConfusion hok
    | (have hd := Except.ok.inj hok
       rw [← hd]
       show computeDF1 studies - (((jsDedup (idxA ++ idxB)).length : ℝ) - 1) = _
       rw [hdf1])

/-- Witness for the amended C2 at a one-study three-arm instance. -/
theorem claim2_amended_witness :
    (nanNMAData 3 [0, 0, 1] [1, 2, 2] [5, 5, 5]).dfQ =
      (∑ s ∈ ([5, 5, 5] : List ℕ).toFinset, (((3 : ℕ) : ℝ) - 1)) -
        (((jsDedup ([0, 0, 1] ++ [1, 2, 2])).length : ℝ) - 1) :=
  claim2_amended [5, 5, 5] (fun _ => 3) [0, 0, 0]
    [JSVal.nan, JSVal.nan, JSVal.nan] [0, 0, 1] [1, 2, 2] _
    (by decide) rfl

/-- C2, counterexample: one three-arm study (labels `[5,5,5]`, three
contrasts among treatments `0,1,2`).  The solver attaches
`dfQ = Σ(k−1) − (n−1) = 2 − 2 = 0`, while the spec's formula
`2·Σ 1/C(k,2) − (n−1)` gives `2/3 − 2 = −4/3`. -/
theorem claim2_counterexample :
    ∃ d, NMA [0, 0, 0] [JSVal.nan, JSVal.nan, JSVal.nan] [0, 0, 1] [1, 2, 2]
        ([5, 5, 5] : List ℕ) = .ok d ∧
      d.dfQ ≠ claimedDF [3] 3 := by
  refine ⟨_, rfl, ?_⟩
  have h3 : invertNChoose2 ((3 : ℕ) : ℝ) = 3 :=
    invertNChoose2_count (by norm_num) (by norm_num)
  have hcount : ([5, 5, 5] : List ℕ).count 5 = 3 := rfl
  have hlen : ((jsDedup (([0, 0, 1] : List ℕ) ++ [1, 2, 2])).length : ℝ) = 3 := by
    have h : (jsDedup (([0, 0, 1] : List ℕ) ++ [1, 2, 2])).length = 3 := rfl
    rw [h]
    norm_num
  show computeDF1 ([5, 5, 5] : List ℕ) -
      (((jsDedup (([0, 0, 1] : List ℕ) ++ [1, 2, 2])).length : ℝ) - 1) ≠ _
  rw [hlen]
  simp only [computeDF1, List.map_cons, List.map_nil, List.sum_cons,
    List.sum_nil, hcount, h3, claimedDF]
  norm_num

/-! ## Claim C6 (corrected): the two-arm standard-error correction -/

/-- The Laplacian-style matrix `Lt` that `_computeNewSEs` builds for a
two-arm study with pair variance `x`. -/
noncomputable def twoArmLt (x : ℝ) : Matrix (Fin 2) (Fin 2) ℝ :=
  !![x / 4, -(x / 4); -(x / 4), x / 4]

/-- The 2×2 graph-Laplacian pattern. -/
def jMat : Matrix (Fin 2) (Fin 2) ℝ := !![1, -1; -1, 1]

theorem twoArmLt_eq_smul (x : ℝ) : twoArmLt x = (x / 4) • jMat := by
  ext i j
  fin_cases i <;> fin_cases j <;> simp [twoArmLt, jMat] <;> ring

theorem jMat_mul_jMat : jMat * jMat = (2 : ℝ) • jMat := by
  ext i j
  fin_cases i <;> fin_cases j <;>
    simp [jMat, Matrix.mul_apply, Fin.sum_univ_two] <;> norm_num

theorem jMat_transpose : jMatᵀ = jMat := by
  ext i j
  fin_cases i <;> fin_cases j <;> simp [jMat]

/-- The Moore–Penrose pseudoinverse of `twoArmLt x` is `x⁻¹ • jMat`
(for `x ≠ 0`). -/
theorem isMPInv_twoArmLt {x : ℝ} (hx : x ≠ 0) :
    IsMPInv (twoArmLt x) (x⁻¹ • jMat) := by
  rw [twoArmLt_eq_smul]
  have hmul : ∀ a b : ℝ, (a • jMat) * (b • jMat) = (a * b * 2) • jMat := by
    intro a b
    rw [Matrix.smul_mul, Matrix.mul_smul, jMat_mul_jMat, smul_smul, smul_smul]
    try congr 1
    try ring
  refine ⟨?_, ?_, ?_, ?_⟩
  · rw [hmul, hmul]
    congr 1
    field_simp
    try ring
  · rw [hmul, hmul]
    congr 1
    field_simp
    try ring
    try exact Or.inl trivial
  · rw [hmul, Matrix.transpose_smul, jMat_transpose]
  · rw [hmul, Matrix.transpose_smul, jMat_transpose]

/-- The pseudoinverse input built for a single two-arm pair variance is
`twoArmLt`. -/
theorem newSEsLt_single (x : ℝ) : newSEsLt 2 [x] = twoArmLt x := by
  have hpl : pairList 2 = [(0, 1)] := rfl
  unfold newSEsLt
  ext i j
  fin_cases i <;> fin_cases j <;>
    · simp only [hpl, twoArmLt, List.length_cons, List.length_nil,
        Finset.sum_range_succ, Finset.sum_range_zero, List.getD]
      norm_num [Matrix.cons_val_zero, Matrix.cons_val_one]
      try ring

/-- `_computeNewSEs` on a single two-arm pair variance `x ≠ 0` returns
`[x]` unchanged (through the Moore–Penrose pseudoinverse of the two-arm
Laplacian). -/
theorem computeNewSEs_single (pinv : PinvFun) (x : ℝ) (hx : x ≠ 0)
    (hmp : IsMPInv (twoArmLt x) (pinv 2 (twoArmLt x))) :
    computeNewSEs pinv [x] = [JSVal.num x] := by
  have hpinv : pinv 2 (twoArmLt x) = x⁻¹ • jMat :=
    IsMPInv.unique hmp (isMPInv_twoArmLt hx)
  simp only [computeNewSEs, List.length_singleton]
  split_ifs with hguard
  case neg => exact absurd rfl hguard
  rw [show armsOf 1 = 2 from rfl, newSEsLt_single, hpinv]
  rw [show pairList 2 = [(0, 1)] from rfl]
  simp only [List.map_cons, List.map_nil]
  have hW : matAt (Matrix.diagonal
      (fun i => ((x⁻¹ • jMat : Matrix (Fin 2) (Fin 2) ℝ)) i i) -
      (x⁻¹ • jMat : Matrix (Fin 2) (Fin 2) ℝ)) 0 1 = x⁻¹ := by
    unfold matAt
    rw [dif_pos ⟨by norm_num, by norm_num⟩]
    rw [Matrix.sub_apply, Matrix.diagonal_apply_ne _ (by decide)]
    simp [jMat]
  rw [hW]
  unfold jsInv1
  rw [if_neg (inv_ne_zero hx), one_div, inv_inv]

/-- The zero pseudoinverse library: correct (Moore–Penrose) for the zero
matrix. -/
noncomputable def zeroPinv : PinvFun := fun _ _ => 0

/-- C6, counterexample: at pair variance `0` (reachable from a
mean-difference study with zero standard deviations), the two-arm
correction is *not* the identity: the library value is the genuine
Moore–Penrose pseudoinverse of the zero Laplacian, yet the corrected
value is `1/0 = +Infinity`, not `0`. -/
theorem claim6_counterexample :
    IsMPInv (newSEsLt 2 [(0 : ℝ)]) (zeroPinv 2 (newSEsLt 2 [(0 : ℝ)])) ∧
    computeNewSEs zeroPinv [(0 : ℝ)] = [JSVal.posInf] ∧
    JSVal.posInf ≠ JSVal.num 0 := by
  refine ⟨?_, ?_, fun h => JSVal.noConfusion h⟩
  · have h0 : newSEsLt 2 [(0 : ℝ)] = 0 := by
      rw [newSEsLt_single]
      ext i j
      fin_cases i <;> fin_cases j <;> simp [twoArmLt]
    rw [h0]
    show IsMPInv 0 0
    refine ⟨?_, ?_, ?_, ?_⟩ <;> simp
  · simp only [computeNewSEs, List.length_singleton]
    split_ifs with hguard
    case neg => exact absurd rfl hguard
    rw [show armsOf 1 = 2 from rfl]
    rw [show pairList 2 = [(0, 1)] from rfl]
    simp only [List.map_cons, List.map_nil]
    have hW : matAt (Matrix.diagonal
        (fun i => (zeroPinv 2 (newSEsLt 2 [(0 : ℝ)])) i i) -
        zeroPinv 2 (newSEsLt 2 [(0 : ℝ)])) 0 1 = 0 := by
      unfold matAt zeroPinv
      rw [dif_pos ⟨by norm_num, by norm_num⟩]
      simp
    rw [hW]
    unfold jsInv1
    rw [if_pos rfl]

/-- C6, amended: for a two-arm study with *positive* pair variance the
standard-error correction is the identity (`_computeNewSEs [x] = [x]`,
given the Moore–Penrose property of the library pseudoinverse on the
two-arm Laplacian), and for every input vector the output has the same
length (and order: entry `e` is derived from the same pair `(i, j)` that
produced input entry `e`). -/
theorem claim6_amended (pinv : PinvFun) (x : ℝ) (r : List ℝ) (hx : 0 < x)
    (hmp : IsMPInv (twoArmLt x) (pinv 2 (twoArmLt x))) :
    computeNewSEs pinv [x] = [JSVal.num x] ∧
    (computeNewSEs pinv r).length = r.length := by
  refine ⟨computeNewSEs_single pinv x (ne_of_gt hx) hmp, ?_⟩
  simp only [computeNewSEs]
  split_ifs with h
  · rw [List.length_map, h]
  · rw [List.length_map]

/-- A concrete pseudoinverse library witnessing the amended C6: on 2×2
inputs it returns `jMat`, the Moore–Penrose pseudoinverse of
`twoArmLt 1`. -/
noncomputable def c6pinv : PinvFun := fun n M =>
  match n, M with
  | 2, _ => jMat
  | _, M => M

/-- Witness for the amended C6 at pair variance 1. -/
theorem claim6_witness :
    computeNewSEs c6pinv [(1 : ℝ)] = [JSVal.num 1] ∧
    (computeNewSEs c6pinv [(1 : ℝ)]).length = [(1 : ℝ)].length :=
  claim6_amended c6pinv 1 [1] one_pos
    (by
      show IsMPInv (twoArmLt 1) jMat
      have h := isMPInv_twoArmLt (x := 1) one_ne_zero
      rwa [inv_one, one_smul] at h)

/-! ## Claim C9: Q and its degrees of freedom come from the first pass -/

/-- C9: under random effects, the Q statistic and degrees of freedom
stored in a component result are exactly those of the initial
fixed-effects (tau = 0) solver pass: whenever the random-effects run
succeeds, the fixed-effects run of the same component also succeeds and
reports the same `q` and `dfQ` (and the same treatment ordering); only
the effect and standard-error matrices may differ. -/
theorem claim9_q_df_first_pass {L T : Type} [DecidableEq L] [DecidableEq T]
    [Inhabited L] [Inhabited T] (pinv : PinvFun)
    (studies : List L) (treatments : List T)
    (build : List T → List ℕ → Contrasts T) (comp : List T)
    (res : CompResult L T)
    (hok : componentNMA pinv studies treatments build true comp = .ok res) :
    ∃ res0 : CompResult L T,
      componentNMA pinv studies treatments build false comp = .ok res0 ∧
      res.q = res0.q ∧ res.dfQ = res0.dfQ ∧
      res.orderedTreatments = res0.orderedTreatments := by
  simp only [componentNMA] at hok ⊢
  split at hok
  · exact Except.noConfusion hok
  · rename_i firstPass heq
    split at hok
    all_goals first
      | exact Except.noConfusion hok
      | (injection hok with hd
         refine ⟨_, rfl, ?_, ?_, ?_⟩
         all_goals (rw [← hd]; try rfl))
      | (split at hok
         · exact Except.noConfusion hok
         · injection hok with hd
           refine ⟨_, rfl, ?_, ?_, ?_⟩
           all_goals (rw [← hd]; try rfl))

/-- A contrast builder producing two contrasts for the witness study
(arms `1 vs 2` and `1 vs 3`, unit standard errors). -/
def c9build : List ℕ → List ℕ → Contrasts ℕ :=
  fun _ _ => ⟨[1, 1], [2, 3], [0, 0], [1, 1], [0, 0]⟩

/-- The random-effects component result of the C9 witness network: one
study with arms `1, 2, 3`, contrasts `1-2` and `1-3`. -/
noncomputable def c9res : CompResult ℕ ℕ :=
  { n := 3
    treatmentEffects := fun _ _ => JSVal.nan
    standardErrors := fun _ _ => JSVal.nan
    orderedTreatments := [1, 2, 3]
    studyLevelEffects := [⟨0, 1, 2, 0, 1, 0⟩, ⟨0, 1, 3, 0, 1, 0⟩]
    q := JSVal.nan
    dfQ := computeDF1 ([0, 0] : List ℕ) -
      (((jsDedup (([0, 0] : List ℕ) ++ [1, 2])).length : ℝ) - 1) }

/-- Witness for C9 at the one-study three-arm network. -/
theorem claim9_witness :
    ∃ res0 : CompResult ℕ ℕ,
      componentNMA zeroPinv [0, 0, 0] [1, 2, 3] c9build false [1, 2, 3] =
        .ok res0 ∧
      c9res.q = res0.q ∧ c9res.dfQ = res0.dfQ ∧
      c9res.orderedTreatments = res0.orderedTreatments :=
  claim9_q_df_first_pass zeroPinv [0, 0, 0] [1, 2, 3] c9build [1, 2, 3]
    c9res rfl

/-! ## Claim C7: p-score range and complementarity -/

/-- The two-sided p-value produced by `_computeInferentialStatistics` is
either NaN or a number in `[0, 1]`, whenever the collaborator CDF maps
nonnegative arguments into `[1/2, 1]`. -/
theorem pvalue_num_or_nan (dist : StdDist)
    (hcdf : ∀ x : ℝ, 0 ≤ x → 1 / 2 ≤ dist.cdf x ∧ dist.cdf x ≤ 1)
    (te se : JSVal) (tr : JSVal → JSVal) :
    (computeInferentialStatisticsFn dist te se tr 0.95 0).p = JSVal.nan ∨
    ∃ q : ℝ,
      (computeInferentialStatisticsFn dist te se tr 0.95 0).p = JSVal.num q ∧
      0 ≤ q ∧ q ≤ 1 := by
  simp only [computeInferentialStatisticsFn]
  generalize (te.sub (JSVal.num 0)).div se = z
  cases z with
  | num x =>
      rcases hcdf |x| (abs_nonneg x) with ⟨h1, h2⟩
      refine Or.inr ⟨2 * (1 - dist.cdf |x|), ?_, by linarith, by linarith⟩
      simp
  | posInf =>
      refine Or.inr ⟨0, ?_, le_refl 0, zero_le_one⟩
      show (JSVal.num 2).mul ((JSVal.num 1).sub (dist.cdfJS JSVal.posInf)) =
        JSVal.num 0
      norm_num
  | negInf =>
      refine Or.inr ⟨0, ?_, le_refl 0, zero_le_one⟩
      show (JSVal.num 2).mul ((JSVal.num 1).sub (dist.cdfJS JSVal.posInf)) =
        JSVal.num 0
      norm_num
  | nan => exact Or.inl (by simp)

/-- A SUCRA summand under `smallerBetter = true` is NaN exactly when its
`smallerBetter = false` counterpart is; otherwise the two are numbers in
`[0, 1]` summing to 1. -/
theorem pScoreEntry_compl {L T : Type} (dist : StdDist) (st : NMAState L T)
    (hcdf : ∀ x : ℝ, 0 ≤ x → 1 / 2 ≤ dist.cdf x ∧ dist.cdf x ≤ 1) (i j : ℕ) :
    (pScoreEntry dist st true i j = JSVal.nan ∧
     pScoreEntry dist st false i j = JSVal.nan) ∨
    ∃ e : ℝ, pScoreEntry dist st true i j = JSVal.num e ∧
      pScoreEntry dist st false i j = JSVal.num (1 - e) ∧ 0 ≤ e ∧ e ≤ 1 := by
  obtain ⟨w, hw, hw0, hw1⟩ : ∃ w : ℝ,
      (if (st.te i j).eqZero then (0.5 : ℝ)
       else if (st.te i j).gtZero then 1 else 0) = w ∧ 0 ≤ w ∧ w ≤ 1 :=
    ⟨_, rfl, by split_ifs <;> norm_num⟩
  rcases pvalue_num_or_nan dist hcdf (st.te i j) (st.se i j)
      st.comparison.transform with hpv | ⟨q, hpv, hq0, hq1⟩
  · left
    constructor
    · simp only [pScoreEntry, if_pos rfl, hpv]
      simp
    · simp only [pScoreEntry, if_neg Bool.false_ne_true, hpv]
      simp
  · right
    refine ⟨w * (q / 2) + (1 - w) * (1 - q / 2), ?_, ?_, ?_, ?_⟩
    · simp only [pScoreEntry, if_pos rfl, hpv, hw]
      simp only [JSVal.mul_num, JSVal.div_num_of_ne two_ne_zero,
        JSVal.sub_num, JSVal.add_num]
      exact congrArg JSVal.num (by ring)
    · simp only [pScoreEntry, if_neg Bool.false_ne_true, hpv, hw]
      simp only [JSVal.mul_num, JSVal.div_num_of_ne two_ne_zero,
        JSVal.sub_num, JSVal.add_num]
      exact congrArg JSVal.num (by ring)
    · have t1 : 0 ≤ w * (q / 2) := mul_nonneg hw0 (by linarith)
      have t2 : 0 ≤ (1 - w) * (1 - q / 2) :=
        mul_nonneg (by linarith) (by linarith)
      linarith
    · have t1 : w * (q / 2) ≤ w * 1 :=
        mul_le_mul_of_nonneg_left (by linarith) hw0
      have t2 : (1 - w) * (1 - q / 2) ≤ (1 - w) * 1 :=
        mul_le_mul_of_nonneg_left (by linarith) (by linarith)
      linarith

/-- Row accumulation for the p-scores: under the two `smallerBetter`
settings the NaN-coalesced fold totals of a row are numbers, the non-NaN
counts agree, and the totals sum to that count (each total lying between
0 and the count). -/
theorem pscore_row_fold {L T : Type} (dist : StdDist) (st : NMAState L T)
    (hcdf : ∀ x : ℝ, 0 ≤ x → 1 / 2 ≤ dist.cdf x ∧ dist.cdf x ≤ 1) (i : ℕ)
    (l : List ℕ) : ∀ aT aF : ℝ,
    ∃ sT sF : ℝ,
      (l.map (pScoreEntry dist st true i)).foldl
          (fun acc e => (coalesceNumeric acc).add (coalesceNumeric e))
          (JSVal.num aT) = JSVal.num (aT + sT) ∧
      (l.map (pScoreEntry dist st false i)).foldl
          (fun acc e => (coalesceNumeric acc).add (coalesceNumeric e))
          (JSVal.num aF) = JSVal.num (aF + sF) ∧
      (l.map (pScoreEntry dist st true i)).countP (fun e => !e.isNaN) =
        (l.map (pScoreEntry dist st false i)).countP (fun e => !e.isNaN) ∧
      0 ≤ sT ∧
      sT ≤ ((l.map (pScoreEntry dist st true i)).countP
        (fun e => !e.isNaN) : ℝ) ∧
      sT + sF = ((l.map (pScoreEntry dist st true i)).countP
        (fun e => !e.isNaN) : ℝ) := by
  induction l with
  | nil =>
      exact fun aT aF =>
        ⟨0, 0, by simp, by simp, rfl, le_refl 0, by simp, by simp⟩
  | cons v rest ih =>
      intro aT aF
      rcases pScoreEntry_compl dist st hcdf i v with
        ⟨hvT, hvF⟩ | ⟨e, hvT, hvF, he0, he1⟩
      · obtain ⟨sT, sF, hT, hF, hcnt, h0, hle, hsum⟩ := ih (aT + 0) (aF + 0)
        refine ⟨sT, sF, ?_, ?_, ?_, h0, ?_, ?_⟩
        · rw [List.map_cons, List.foldl_cons, hvT]
          simpa using hT
        · rw [List.map_cons, List.foldl_cons, hvF]
          simpa using hF
        · rw [List.map_cons, List.map_cons, List.countP_cons, List.countP_cons,
            hvT, hvF, hcnt]
        · rw [List.map_cons, List.countP_cons, hvT]
          simpa using hle
        · rw [List.map_cons, List.countP_cons, hvT]
          simpa using hsum
      · obtain ⟨sT, sF, hT, hF, hcnt, h0, hle, hsum⟩ := ih (aT + e) (aF + (1 - e))
        refine ⟨e + sT, (1 - e) + sF, ?_, ?_, ?_, by linarith, ?_, ?_⟩
        · rw [List.map_cons, List.foldl_cons, hvT]
          simp only [coalesceNumeric_num, JSVal.add_num]
          rw [hT]
          exact congrArg JSVal.num (by ring)
        · rw [List.map_cons, List.foldl_cons, hvF]
          simp only [coalesceNumeric_num, JSVal.add_num]
          rw [hF]
          exact congrArg JSVal.num (by ring)
        · rw [List.map_cons, List.map_cons, List.countP_cons, List.countP_cons,
            hvT, hvF, hcnt]
          simp
        · rw [List.map_cons, List.countP_cons, hvT]
          simp only [JSVal.isNaN_num, Bool.not_false, if_pos rfl]
          push_cast
          linarith
        · rw [List.map_cons, List.countP_cons, hvT]
          simp only [JSVal.isNaN_num, Bool.not_false, if_pos rfl]
          push_cast
          linarith

/-- With at least one non-NaN summand in row `i`, the two p-scores of
treatment index `i` are numbers in `[0, 1]` summing to 1. -/
theorem unsortedPScore_compl {L T : Type} (dist : StdDist) (st : NMAState L T)
    (hcdf : ∀ x : ℝ, 0 ≤ x → 1 / 2 ≤ dist.cdf x ∧ dist.cdf x ≤ 1) (i : ℕ)
    (hrow : ∃ j ∈ List.range st.treatments.length,
      ¬(pScoreEntry dist st true i j).isNaN = true) :
    ∃ eT : ℝ, unsortedPScore dist st true i = JSVal.num eT ∧
      unsortedPScore dist st false i = JSVal.num (1 - eT) ∧
      0 ≤ eT ∧ eT ≤ 1 := by
  obtain ⟨sT, sF, hT, hF, hcnt, h0, hle, hsum⟩ :=
    pscore_row_fold dist st hcdf i (List.range st.treatments.length) 0 0
  set cnt := ((List.range st.treatments.length).map
    (pScoreEntry dist st true i)).countP (fun e => !e.isNaN) with hcntdef
  have hpos : 0 < cnt := by
    rcases hrow with ⟨j, hj, hnn⟩
    refine List.countP_pos.mpr
      ⟨pScoreEntry dist st true i j, List.mem_map_of_mem _ hj, ?_⟩
    simpa using hnn
  have hcne : ((cnt : ℝ)) ≠ 0 := Nat.cast_ne_zero.mpr hpos.ne'
  have hsF : sF = (cnt : ℝ) - sT := by linarith
  refine ⟨sT / cnt, ?_, ?_, div_nonneg h0 (Nat.cast_nonneg cnt),
    (div_le_one (by exact_mod_cast hpos)).mpr hle⟩
  · simp only [unsortedPScore]
    rw [hT, ← hcntdef, JSVal.div_num_of_ne hcne]
    exact congrArg JSVal.num (by rw [zero_add])
  · simp only [unsortedPScore]
    rw [hF, ← hcnt, JSVal.div_num_of_ne hcne]
    exact congrArg JSVal.num
      (by rw [zero_add, hsF, sub_div, div_self hcne])

/-- C7: for every network state whose CDF collaborator maps nonnegative
arguments into `[1/2, 1]` and in which every treatment row has at least
one comparable (non-NaN) summand, every p-score returned by
`computePScores` is a number in `[0, 1]`; and the scores under
`smallerBetter = true` and `smallerBetter = false` are complementary —
each treatment index's two scores sum to exactly 1, so the two settings
reverse the ranking. -/
theorem claim7_pscores {L T : Type} [Inhabited T] (dist : StdDist)
    (st : NMAState L T)
    (hcdf : ∀ x : ℝ, 0 ≤ x → 1 / 2 ≤ dist.cdf x ∧ dist.cdf x ≤ 1)
    (hrow : ∀ i ∈ List.range st.treatments.length,
      ∃ j ∈ List.range st.treatments.length,
        ¬(pScoreEntry dist st true i j).isNaN = true) :
    (∀ sb : Bool, ∀ p ∈ st.computePScores dist sb,
      ∃ v : ℝ, p.2 = JSVal.num v ∧ 0 ≤ v ∧ v ≤ 1) ∧
    (∀ i ∈ List.range st.treatments.length,
      (unsortedPScore dist st true i).add (unsortedPScore dist st false i) =
        JSVal.num 1) := by
  constructor
  · intro sb p hp
    simp only [NMAState.computePScores, List.mem_mergeSort] at hp
    obtain ⟨i, hi, rfl⟩ := List.mem_map.mp hp
    obtain ⟨eT, hT, hF, h0, h1⟩ := unsortedPScore_compl dist st hcdf i (hrow i hi)
    cases sb with
    | true => exact ⟨eT, hT, h0, h1⟩
    | false => exact ⟨1 - eT, hF, by linarith, by linarith⟩
  · intro i hi
    obtain ⟨eT, hT, hF, h0, h1⟩ := unsortedPScore_compl dist st hcdf i (hrow i hi)
    rw [hT, hF, JSVal.add_num]
    exact congrArg JSVal.num (by ring)

/-- The constant-1/2 CDF collaborator of the C7 witness. -/
noncomputable def c7dist : StdDist := ⟨fun _ => 1 / 2, fun _ => 0⟩

/-- A two-treatment state with all modelled effects 0 and all standard
errors 1 (as arises from a balanced two-arm network). -/
noncomputable def c7state : NMAState ℕ ℕ :=
  { treatments := [1, 2], n := 2
    te := fun _ _ => JSVal.num 0
    se := fun _ _ => JSVal.num 1
    studyLevelEffects := [], comparison := .MD
    q := JSVal.num 0, dfQ := 0 }

/-- Every p-score summand of the witness state is the number 1/2. -/
theorem c7entry (i j : ℕ) :
    pScoreEntry c7dist c7state true i j = JSVal.num (1 / 2) := by
  norm_num [pScoreEntry, c7state, c7dist, computeInferentialStatisticsFn,
    ComparisonStatistic.transform, JSVal.div_num_of_ne one_ne_zero,
    JSVal.div_num_of_ne two_ne_zero]

/-- Witness for C7 at the two-treatment state. -/
theorem claim7_witness :
    (∀ sb : Bool, ∀ p ∈ c7state.computePScores c7dist sb,
      ∃ v : ℝ, p.2 = JSVal.num v ∧ 0 ≤ v ∧ v ≤ 1) ∧
    (∀ i ∈ List.range c7state.treatments.length,
      (unsortedPScore c7dist c7state true i).add
        (unsortedPScore c7dist c7state false i) = JSVal.num 1) :=
  claim7_pscores c7dist c7state
    (fun x hx => by constructor <;> norm_num [c7dist])
    (fun i hi => ⟨0, by simp [c7state], by rw [c7entry]; simp⟩)

/-! ## Claim C1: the single two-arm study odds ratio

The network has one study (label 10) with two arms (treatments 1 and 2),
positive counts 10/12 and totals 13/20; the Anscombe-corrected cell
counts are `c1pA`–`c1nB` below. -/

noncomputable def c1pA : ℝ := (10 : ℝ) + 0.5

noncomputable def c1nA : ℝ := (13 : ℝ) - 10 + 0.5

noncomputable def c1pB : ℝ := (12 : ℝ) + 0.5

noncomputable def c1nB : ℝ := (20 : ℝ) - 12 + 0.5

/-- The study's log odds ratio, as built by `_buildAllPairsORStatistics`. -/
noncomputable def c1eff : ℝ := Real.log (c1pA / c1nA / (c1pB / c1nB))

/-- The study's log-odds-ratio standard error. -/
noncomputable def c1se : ℝ :=
  Real.sqrt (1 / c1pA + 1 / c1nA + 1 / c1pB + 1 / c1nB)

/-- The single pair-weight inverse handed to `_computeNewSEs`
(`1/(1/(se² + tau²))` at `tau = 0`). -/
noncomputable def c1w : ℝ := ((c1se ^ 2 + (0 : ℝ) ^ 2)⁻¹)⁻¹

def c1studies : List ℕ := [10]

/-- The contrast builder of the C1 network. -/
noncomputable def c1build : List ℕ → List ℕ → Contrasts ℕ :=
  buildAllPairsORStatistics ([10, 12] : List ℝ) ([13, 20] : List ℝ)

/-- The single study-level contrast of the C1 network. -/
noncomputable def c1sle : List (StudyLevelEffect ℕ ℕ) :=
  [{ study := 10, treatment1 := 1, treatment2 := 2, effect := c1eff,
     se := c1se, comparisonN := (13 : ℝ) + 20 }]

/-- The 1×1 weight matrix of the solver run (`W` in `_NMA`). -/
noncomputable def c1W : Matrix (Fin 1) (Fin 1) ℝ :=
  Matrix.diagonal fun r =>
    ((([JSVal.num (Real.sqrt c1w)].map JSVal.toReal).getD r.val 0) ^ 2)⁻¹

/-- The 1×2 observed-contrast matrix (`B` in `_NMA`). -/
noncomputable def c1B : Matrix (Fin 1) (Fin 2) ℝ := fun r c =>
  if ([0] : List ℕ).getD r.val 0 = c.val then 1
  else if ([1] : List ℕ).getD r.val 0 = c.val then -1 else 0

def c1ones : Matrix (Fin 2) (Fin 2) ℝ := fun _ _ => 1

/-- The `LInv` matrix of the solver run. -/
noncomputable def c1LInv : Matrix (Fin 2) (Fin 2) ℝ :=
  (c1Bᵀ * c1W * c1B - (((2 : ℕ) : ℝ))⁻¹ • c1ones)⁻¹ +
    (((2 : ℕ) : ℝ))⁻¹ • c1ones

/-- The hat matrix `H = B·LInv·Bᵀ·W` of the solver run. -/
noncomputable def c1H : Matrix (Fin 1) (Fin 1) ℝ := c1B * c1LInv * c1Bᵀ * c1W

/-- The consistent contrast effect written into the effect matrix. -/
noncomputable def c1g : ℝ :=
  ∑ c : Fin 1, c1H 0 c * (([c1eff] : List ℝ).getD c.val 0)

theorem c1arg_pos : 0 < 1 / c1pA + 1 / c1nA + 1 / c1pB + 1 / c1nB := by
  norm_num [c1pA, c1nA, c1pB, c1nB]

theorem c1w_pos : 0 < c1w := by
  have hse : 0 < c1se := Real.sqrt_pos.mpr c1arg_pos
  have h2 : 0 < c1se ^ 2 + (0 : ℝ) ^ 2 := by nlinarith [pow_pos hse 2]
  exact inv_pos.mpr (inv_pos.mpr h2)

theorem c1w_ne : c1w ≠ 0 := ne_of_gt c1w_pos

theorem c1w_nonneg : 0 ≤ c1w := le_of_lt c1w_pos

theorem c1W_eq : c1W = Matrix.diagonal fun _ => c1w⁻¹ := by
  have h : (([JSVal.num (Real.sqrt c1w)].map JSVal.toReal).getD 0 0 ^ 2)⁻¹ =
      c1w⁻¹ := by
    rw [List.map_cons, List.map_nil, List.getD_cons_zero, JSVal.toReal_num,
      Real.sq_sqrt c1w_nonneg]
  unfold c1W
  ext i j
  fin_cases i
  fin_cases j
  rw [Matrix.diagonal_apply_eq, Matrix.diagonal_apply_eq]
  exact h

theorem c1M_eq : c1Bᵀ * c1W * c1B - (((2 : ℕ) : ℝ))⁻¹ • c1ones =
    !![c1w⁻¹ - 2⁻¹, -c1w⁻¹ - 2⁻¹; -c1w⁻¹ - 2⁻¹, c1w⁻¹ - 2⁻¹] := by
  rw [c1W_eq]
  ext i j
  fin_cases i <;> fin_cases j <;>
    simp [c1B, c1ones, Matrix.mul_apply, Fin.sum_univ_one,
      Matrix.transpose_apply, Matrix.sub_apply, Matrix.smul_apply] <;>
    norm_num

theorem c1LInv_eq : c1LInv = !![c1w / 4, -(c1w / 4); -(c1w / 4), c1w / 4] := by
  have hne := c1w_ne
  unfold c1LInv
  rw [c1M_eq, Matrix.inv_def, Matrix.adjugate_fin_two, Matrix.det_fin_two_of,
    Ring.inverse_eq_inv']
  have hd : (c1w⁻¹ - 2⁻¹) * (c1w⁻¹ - 2⁻¹) -
      (-c1w⁻¹ - 2⁻¹) * (-c1w⁻¹ - 2⁻¹) = -(2 * c1w⁻¹) := by ring
  rw [hd]
  ext i j
  fin_cases i <;> fin_cases j <;>
    · simp [c1ones, Matrix.smul_apply, Matrix.add_apply]
      field_simp
      ring

theorem c1H00 : c1H 0 0 = 1 := by
  unfold c1H
  rw [c1W_eq, c1LInv_eq]
  simp [c1B, Matrix.mul_apply, Fin.sum_univ_one, Fin.sum_univ_two,
    Matrix.transpose_apply]
  field_simp [c1w_ne]
  try ring

theorem c1g_eq : c1g = c1eff := by
  unfold c1g
  rw [Fin.sum_univ_one, c1H00, one_mul]
  rfl

/-- The closure loop of `_NMA` leaves the direct cell `(0, 1)` at the
consistent effect (the stale triple-loop writes cancel). -/
theorem c1te01 : ((tripleList 2).foldl closureStep
    (mset (fun _ _ => JSVal.nan) 0 1 (JSVal.num c1g))) 0 1 =
    JSVal.num c1eff := by
  have h : ((tripleList 2).foldl closureStep
      (mset (fun _ _ => JSVal.nan) 0 1 (JSVal.num c1g))) 0 1 =
      JSVal.num
        (((((c1g - c1g) - c1g) - (c1g - c1g)) -
            (((c1g - c1g) - c1g) - (c1g - c1g))) -
          ((((c1g - c1g) - c1g) - (c1g - c1g)) -
            ((c1g - (c1g - c1g)) - (c1g - (c1g - c1g))))) := rfl
  rw [h, ← c1g_eq]
  exact congrArg JSVal.num (by ring)

theorem c1NMA_isOk :
    ∃ d, NMA [c1eff] [JSVal.num (Real.sqrt c1w)] [0] [1] c1studies = .ok d := by
  by_cases h : (([JSVal.num (Real.sqrt c1w)] : List JSVal).all
      fun e => e.isNum && !e.eqZero) = true
  · exact ⟨_, by simp only [NMA]; rw [if_neg (not_not_intro h)]; rfl⟩
  · exact ⟨_, by simp only [NMA]; rw [if_pos h]; rfl⟩

theorem c1NMA_eval (d : NMAData)
    (hd : NMA [c1eff] [JSVal.num (Real.sqrt c1w)] [0] [1] c1studies = .ok d) :
    d.treatmentEffects 0 1 = JSVal.num c1eff := by
  have hsne : Real.sqrt c1w ≠ 0 := ne_of_gt (Real.sqrt_pos.mpr c1w_pos)
  have hguard : (([JSVal.num (Real.sqrt c1w)] : List JSVal).all
      fun e => e.isNum && !e.eqZero) = true := by
    simp [hsne]
  simp only [NMA] at hd
  split_ifs at hd with h1 h2 h3 <;>
    first
      | exact Except.noConfusion hd
      | exact absurd hguard (by assumption)
      | (injection hd with h
         rw [← h]
         exact c1te01)

/-- The corrected standard error of the single contrast is the input
standard error (through the two-arm Moore–Penrose identity). -/
theorem c1ses (pinv : PinvFun)
    (hmp : IsMPInv (twoArmLt c1w) (pinv 2 (twoArmLt c1w))) :
    (computePrerequisites pinv [c1se] [1] [2] c1studies 0).standardErrors =
      [JSVal.num (Real.sqrt c1w)] := by
  have h0 : (computePrerequisites pinv [c1se] [1] [2] c1studies
        0).standardErrors =
      [((computeNewSEs pinv [c1w]).map JSVal.sqrt).getD 0 JSVal.nan] := rfl
  rw [h0, computeNewSEs_single pinv c1w c1w_ne hmp, List.map_cons,
    List.map_nil, List.getD_cons_zero, JSVal.sqrt_num_of_nonneg c1w_nonneg]

theorem c1orpre : ORNMAPreconditions [10, 10] ([1, 2] : List ℕ)
    ([10, 12] : List ℝ) ([13, 20] : List ℝ) = .ok () := by
  unfold ORNMAPreconditions
  rw [if_neg (by norm_num), if_neg ?hc]
  · rfl
  case hc =>
    rintro ⟨ix, hix, h⟩
    simp only [List.mem_range, List.length_cons, List.length_nil] at hix
    interval_cases ix <;> norm_num [List.getD] at h

/-- C1: for any pseudoinverse library that is Moore–Penrose on the
two-arm Laplacian of this study, the odds-ratio NMA built from the single
two-arm study `studies = [10,10]`, `treatments = [1,2]`,
`positiveCounts = [10,12]`, `totalCounts = [13,20]` (fixed effects, as in
the spec's scenario) succeeds, and `getEffect 1 2` is exactly the
Anscombe-corrected odds ratio `(10.5/3.5)/(12.5/8.5)`. -/
theorem claim1_single_study_or (pinv : PinvFun)
    (hmp : IsMPInv (twoArmLt c1w) (pinv 2 (twoArmLt c1w))) :
    ∃ st : NMAState ℕ ℕ,
      oddsRatioNMA pinv [10, 10] [1, 2] ([10, 12] : List ℝ)
        ([13, 20] : List ℝ) false = .ok st ∧
      st.getEffect 1 2 = .ok (JSVal.num ((10.5 / 3.5) / (12.5 / 8.5))) := by
  obtain ⟨d, hd⟩ := c1NMA_isOk
  have hte : d.treatmentEffects 0 1 = JSVal.num c1eff := c1NMA_eval d hd
  have hbridge : componentNMA pinv [10, 10] [1, 2] c1build false [1, 2] =
      (match NMA [c1eff]
          (computePrerequisites pinv [c1se] [1] [2] c1studies 0).standardErrors
          [0] [1] c1studies with
       | .error e => .error e
       | .ok fp =>
           (.ok { n := 2
                  treatmentEffects := fp.treatmentEffects
                  standardErrors := fp.standardErrors
                  orderedTreatments := [1, 2]
                  studyLevelEffects := c1sle
                  q := fp.q
                  dfQ := fp.dfQ } : Except NMAError (CompResult ℕ ℕ))) := rfl
  have hcomp : componentNMA pinv [10, 10] [1, 2] c1build false [1, 2] =
      .ok { n := 2
            treatmentEffects := d.treatmentEffects
            standardErrors := d.standardErrors
            orderedTreatments := [1, 2]
            studyLevelEffects := c1sle
            q := d.q
            dfQ := d.dfQ } := by
    rw [hbridge, c1ses pinv hmp, hd]
  have hor : oddsRatioNMA pinv [10, 10] [1, 2] ([10, 12] : List ℝ)
      ([13, 20] : List ℝ) false =
      .ok (mkState (mergeComponentNMAResults
        [({ n := 2
            treatmentEffects := d.treatmentEffects
            standardErrors := d.standardErrors
            orderedTreatments := [1, 2]
            studyLevelEffects := c1sle
            q := d.q
            dfQ := d.dfQ } : CompResult ℕ ℕ)])
        ComparisonStatistic.OR) := by
    unfold oddsRatioNMA
    rw [c1orpre]
    show generalizedNMA pinv [10, 10] [1, 2] c1build
      ComparisonStatistic.OR false = _
    unfold generalizedNMA
    rw [if_neg (by norm_num),
      show getConnectedComponents [10, 10] ([1, 2] : List ℕ) = [[1, 2]]
        from rfl]
    simp only [listMapE]
    rw [hcomp]
    rfl
  refine ⟨_, hor, ?_⟩
  · have hge : (mkState (mergeComponentNMAResults
        [({ n := 2
            treatmentEffects := d.treatmentEffects
            standardErrors := d.standardErrors
            orderedTreatments := [1, 2]
            studyLevelEffects := c1sle
            q := d.q
            dfQ := d.dfQ } : CompResult ℕ ℕ)])
        ComparisonStatistic.OR).getEffect 1 2 =
        .ok (JSVal.exp (d.treatmentEffects 0 1)) := rfl
    rw [hge, hte]
    rw [show JSVal.exp (JSVal.num c1eff) = JSVal.num (Real.exp c1eff) from rfl]
    have hval : Real.exp c1eff = (10.5 / 3.5) / (12.5 / 8.5) := by
      unfold c1eff
      rw [Real.exp_log (by norm_num [c1pA, c1nA, c1pB, c1nB])]
      norm_num [c1pA, c1nA, c1pB, c1nB]
    rw [hval]

/-- A pseudoinverse library for the C1 witness: Moore–Penrose on the
study's two-arm Laplacian. -/
noncomputable def c1pinv : PinvFun := fun n M =>
  match n, M with
  | 2, _ => c1w⁻¹ • jMat
  | _, M => M

/-- Witness for C1 at the concrete pseudoinverse library. -/
theorem claim1_witness :
    ∃ st : NMAState ℕ ℕ,
      oddsRatioNMA c1pinv [10, 10] [1, 2] ([10, 12] : List ℝ)
        ([13, 20] : List ℝ) false = .ok st ∧
      st.getEffect 1 2 = .ok (JSVal.num ((10.5 / 3.5) / (12.5 / 8.5))) :=
  claim1_single_study_or c1pinv
    (show IsMPInv (twoArmLt c1w) (c1w⁻¹ • jMat) from isMPInv_twoArmLt c1w_ne)

end Shukra
